import Mathlib

set_option linter.unusedSectionVars false

/-!
Verification of the AVL-tree map in `C-Experiments/map_with_function_pointers.c`.

The C code implements a generic ordered map as an AVL tree whose nodes carry
`key`, `value`, `left`, `right`, `parent` pointers and an `int height` field.
We embed the tree shallowly: a node is a constructor carrying its two child
subtrees, its key, its value and its stored height field; the parent pointer
of the C code is the path context (a zipper) when we model iterators, and is
implicit in the functional reconstruction of the tree for the mutating
operations (the C helper `set_child` writes the rebalanced subtree back into
the parent's child slot; functionally this is just the recursive rebuild).

Keys are an arbitrary linearly ordered type: the C comparator callback is a
caller-supplied total order returning negative/zero/positive, and every branch
in the C code tests `c == 0`, `c < 0` or falls through, which is exactly the
`=` / `<` / `>` trichotomy of the linear order.  Values are an arbitrary type.
The optional `key_dup`/`val_dup` callbacks produce a copy of the caller's
object with the same content; in a value-semantics embedding a content-equal
copy is the value itself, so duplication is the identity on the stored value.
The optional free callbacks are observable: we record the arguments of each
`val_free` invocation of `map_put` in an explicit event list, and keep a
boolean field recording whether a `val_free` callback was configured.

Dynamic allocation (`malloc`) is assumed to succeed; the fixed-capacity pool
variant at the bottom of the C file models allocation failure explicitly and
is embedded separately below.
-/

namespace AvlMap

/-- Tree of key/value nodes.  `node l k v r h` is a C `map_node_t` with left
child `l`, key `k`, value `v`, right child `r` and stored `height` field `h`
(the C field is an `int` that is always ≥ 0, so we use `Nat`).  `nil` is the
null pointer. -/
inductive Tree (κ β : Type) where
  | nil : Tree κ β
  | node (l : Tree κ β) (key : κ) (value : β) (r : Tree κ β) (height : Nat) : Tree κ β
deriving DecidableEq, Repr

variable {κ β : Type}

/-- C `node_height`: the stored height field of a node, 0 for NULL. -/
def node_height : Tree κ β → Nat
  | .nil => 0
  | .node _ _ _ _ h => h

/-- Left child of a node (NULL for NULL, matching `n->left` on a non-null `n`;
the `nil` case is never reached where the C dereferences). -/
def left_of : Tree κ β → Tree κ β
  | .nil => .nil
  | .node l _ _ _ _ => l

/-- Right child of a node. -/
def right_of : Tree κ β → Tree κ β
  | .nil => .nil
  | .node _ _ _ r _ => r

/-- Key stored at the root node, if any. -/
def root_key : Tree κ β → Option κ
  | .nil => none
  | .node _ k _ _ _ => some k

/-- C `update_height`: recompute the stored height of the root node from the
stored heights of its children (`(hl > hr ? hl : hr) + 1`). -/
def update_height : Tree κ β → Tree κ β
  | .nil => .nil
  | .node l k v r _ => .node l k v r (max (node_height l) (node_height r) + 1)

/-- C `rotate_right` on the subtree rooted at `y = node (node ll lk lv lr _) k v r _`:
`x = y->left`, `T2 = x->right`; after relinking, `update_height(y)` then
`update_height(x)`.  The C requires `y->left` non-null; on other shapes this
function is never invoked and we return the argument unchanged. -/
def rotate_right : Tree κ β → Tree κ β
  | .node (.node ll lk lv lr _) k v r _h =>
      .node ll lk lv (.node lr k v r (max (node_height lr) (node_height r) + 1))
        (max (node_height ll) (max (node_height lr) (node_height r) + 1) + 1)
  | t => t

/-- C `rotate_left` on the subtree rooted at `x = node l k v (node rl rk rv rr _) _`:
mirror image of `rotate_right`. -/
def rotate_left : Tree κ β → Tree κ β
  | .node l k v (.node rl rk rv rr _) _h =>
      .node (.node l k v rl (max (node_height l) (node_height rl) + 1)) rk rv rr
        (max (max (node_height l) (node_height rl) + 1) (node_height rr) + 1)
  | t => t

/-- C `rebalance_at`: `update_height(node)`, compute the balance factor
`height(left) - height(right)` as a signed integer, and apply the LL / LR /
RR / RL rotation case (or nothing) exactly as the C source does.  The C
generic version requires `node` non-null; the pool version returns NULL for
NULL, which is the behaviour we give the `nil` case. -/
def rebalance_at (t : Tree κ β) : Tree κ β :=
  match t with
  | .nil => .nil
  | .node l k v r _ =>
    if (node_height l : Int) - (node_height r : Int) > 1 then
      if node_height (left_of l) ≥ node_height (right_of l) then
        rotate_right (.node l k v r (max (node_height l) (node_height r) + 1))
      else
        rotate_right (.node (rotate_left l) k v r (max (node_height l) (node_height r) + 1))
    else if (node_height l : Int) - (node_height r : Int) < -1 then
      if node_height (right_of r) ≥ node_height (left_of r) then
        rotate_left (.node l k v r (max (node_height l) (node_height r) + 1))
      else
        rotate_left (.node l k v (rotate_right r) (max (node_height l) (node_height r) + 1))
    else
      .node l k v r (max (node_height l) (node_height r) + 1)

variable [LinearOrder κ]

/-- Core of C `map_insert`: descend comparing the key (`c == 0` → found, no
modification, status 0; `c < 0` → left, else right), attach a fresh node of
height 1 (`node_new`) at the discovered leaf position, and apply
`rebalance_at` at every ancestor on the way back to the root (the C walks the
parent chain calling `rebalance_at` and `set_child`; the recursive rebuild
visits exactly the same ancestors in the same deepest-first order).  The first
component is the C return status: 1 inserted, 0 key existed. -/
def insert_go (k : κ) (v : β) : Tree κ β → Int × Tree κ β
  | .nil => (1, .node .nil k v .nil 1)
  | .node l key val r h =>
      if k = key then (0, .node l key val r h)
      else if k < key then
        let res := insert_go k v l
        if res.1 = 1 then (1, rebalance_at (.node res.2 key val r h))
        else (res.1, .node l key val r h)
      else
        let res := insert_go k v r
        if res.1 = 1 then (1, rebalance_at (.node l key val res.2 h))
        else (res.1, .node l key val r h)

/-- C `map_t`: root pointer, element count, and the callback configuration.
The comparator is the `LinearOrder` instance; `val_free` records whether a
value-free callback was supplied (the callback itself only matters through
the event list returned by `map_put`). -/
structure map_t (κ β : Type) where
  root : Tree κ β
  size : Nat
  val_free : Bool
deriving DecidableEq, Repr

/-- C `map_create`: fresh map with NULL root and size 0.  The C also stores
the comparator (required, supplied here by the `LinearOrder` instance) and
the optional callbacks. -/
def map_create (vf : Bool) : map_t κ β := ⟨.nil, 0, vf⟩

/-- C `map_insert` on a (non-null) map: empty-root fast path creates the root
and sets `size = 1`; otherwise run the descent/rebalance core and increment
the size only when the status is 1. -/
def map_insert (m : map_t κ β) (k : κ) (v : β) : Int × map_t κ β :=
  match m.root with
  | .nil => (1, ⟨.node .nil k v .nil 1, 1, m.val_free⟩)
  | .node l key val r h =>
      let res := insert_go k v (.node l key val r h)
      (res.1, ⟨res.2, if res.1 = 1 then m.size + 1 else m.size, m.val_free⟩)

/-- C `find_node`: standard BST descent from the root; returns the node with
an equal key (as the subtree it roots) or NULL. -/
def find_node (t : Tree κ β) (k : κ) : Tree κ β :=
  match t with
  | .nil => .nil
  | .node l key val r h =>
      if k = key then .node l key val r h
      else if k < key then find_node l k
      else find_node r k

/-- C `map_find` (found/not-found view): `n ? n->value : NULL`, with `some`
for a located node and `none` for NULL.  When the stored values themselves
contain a null (β instantiated at an `Option`), the C caller receives the
bare pointer; that flattening is `map_find_flat` below. -/
def map_find (m : map_t κ β) (k : κ) : Option β :=
  match find_node m.root k with
  | .nil => none
  | .node _ _ v _ _ => some v

/-- C `map_find`, exact pointer view for a value type with a null element:
`return n ? n->value : NULL` yields the stored pointer when the node exists
(even when that stored pointer is NULL) and NULL otherwise. -/
def map_find_flat {γ : Type} (m : map_t κ (Option γ)) (k : κ) : Option γ :=
  match find_node m.root k with
  | .nil => none
  | .node _ _ v _ _ => v

/-- Value-replacement step of C `map_put` when `find_node` succeeded: the C
writes `existing->value = ...` through the node pointer, touching neither
structure, keys, heights nor size; functionally we rebuild the path to the
located node with the same comparisons `find_node` used. -/
def put_value (k : κ) (v : β) : Tree κ β → Tree κ β
  | .nil => .nil
  | .node l key val r h =>
      if k = key then .node l key v r h
      else if k < key then .node (put_value k v l) key val r h
      else .node l key val (put_value k v r) h

/-- C `map_put`: if the key exists, release the old value via `val_free` when
configured (the third component lists the arguments of the `val_free` calls
made, in order) and store the new value, returning 2; otherwise delegate to
`map_insert` (which performs no `val_free` call). -/
def map_put (m : map_t κ β) (k : κ) (v : β) : Int × map_t κ β × List β :=
  match find_node m.root k with
  | .node _ _ oldv _ _ =>
      (2, ⟨put_value k v m.root, m.size, m.val_free⟩,
        if m.val_free then [oldv] else [])
  | .nil =>
      let res := map_insert m k v
      (res.1, res.2, [])

/-- C `subtree_min`: leftmost descent; returns the minimum node (as the
subtree it roots) or NULL. -/
def subtree_min : Tree κ β → Tree κ β
  | .nil => .nil
  | .node .nil k v r h => .node .nil k v r h
  | .node (.node a b c d e) _ _ _ _ => subtree_min (.node a b c d e)

/-- Removal of the minimum node of a non-empty subtree, as performed by
`erase_node` when called on the in-order successor: the leftmost node has no
left child, so its right child is spliced into its place (no rebalance at the
splice point; C returns the parent), and `rebalance_at` runs at every
ancestor inside the subtree on the way back up (the upward `while (p)` loop
of `map_erase` restricted to this subtree).  Returns the removed key/value
and the remaining subtree; `none` for an empty subtree (never the case where
the C calls it). -/
def pop_min : Tree κ β → Option (κ × β × Tree κ β)
  | .nil => none
  | .node .nil k v r _ => some (k, v, r)
  | .node (.node a b c d e) k v r h =>
      match pop_min (.node a b c d e) with
      | none => none
      | some (mk, mv, l') => some (mk, mv, rebalance_at (.node l' k v r h))

/-- Core of C `map_erase`/`erase_node`: descend to the key (absent → `none`,
the C returns 0 without touching the tree).  A node with at most one child is
spliced out (`erase_node` links the single child into its position and frees
the node; rebalancing starts at the parent, i.e. in the caller's frame).  A
node with two children swaps its key/value with the in-order successor — the
minimum of the right subtree — and the node actually unlinked is that
successor (`pop_min`); `rebalance_at` then runs at this node and at every
ancestor on the way back to the root, exactly the upward loop of C
`map_erase`. -/
def erase_go (k : κ) : Tree κ β → Option (Tree κ β)
  | .nil => none
  | .node l key val r h =>
      if k = key then
        match l, r with
        | .nil, _ => some r
        | _, .nil => some l
        | .node a b c d e, .node a' b' c' d' e' =>
            match pop_min (.node a' b' c' d' e') with
            | none => none
            | some (mk, mv, r') =>
                some (rebalance_at (.node (.node a b c d e) mk mv r' h))
      else if k < key then
        match erase_go k l with
        | none => none
        | some l' => some (rebalance_at (.node l' key val r h))
      else
        match erase_go k r with
        | none => none
        | some r' => some (rebalance_at (.node l key val r' h))

/-- C `map_erase` on a (non-null) map: returns 1 and the updated map when the
key was found, otherwise 0 with the map untouched.  The C decrements the
`size_t` size field; on every state where an element was actually found the
size is positive (it equals the number of nodes), so `Nat` subtraction agrees
with the C decrement. -/
def map_erase (m : map_t κ β) (k : κ) : Int × map_t κ β :=
  match erase_go k m.root with
  | none => (0, m)
  | some t => (1, ⟨t, m.size - 1, m.val_free⟩)

/-- C `map_size` (non-null map): the stored element count. -/
def map_size (m : map_t κ β) : Nat := m.size

/-- C `map_clear`: free all nodes, NULL root, size 0. -/
def map_clear (m : map_t κ β) : map_t κ β := ⟨.nil, 0, m.val_free⟩

/-!
Iterators.  A C iterator is a node pointer; `map_next`/`map_prev` read the
node's children and walk the parent chain.  We embed the parent chain as the
path context of the node inside the tree (a zipper): `Path.inl p k v r h`
records that the current subtree is the left child of a node with key `k`,
value `v`, right child `r`, stored height `h` and context `p`; `Path.inr`
mirrors it for a right child.  The end sentinel (NULL) is `none`.
-/

/-- Parent chain of a node: the context of a subtree inside the whole tree. -/
inductive Path (κ β : Type) where
  | top : Path κ β
  | inl (p : Path κ β) (key : κ) (value : β) (r : Tree κ β) (height : Nat) : Path κ β
  | inr (l : Tree κ β) (key : κ) (value : β) (p : Path κ β) (height : Nat) : Path κ β
deriving DecidableEq, Repr

/-- Iterator position: the current node (as the subtree it roots, always a
`node` for positions the API produces) together with its parent chain. -/
def Loc (κ β : Type) : Type := Tree κ β × Path κ β

/-- Leftmost descent used by C `subtree_min` when it produces an iterator:
walk `n = n->left` while possible, extending the parent chain. -/
def down_min : Tree κ β → Path κ β → Option (Loc κ β)
  | .nil, _ => none
  | .node .nil k v r h, p => some (.node .nil k v r h, p)
  | .node (.node a b c d e) k v r h, p =>
      down_min (.node a b c d e) (.inl p k v r h)

/-- Rightmost descent, mirror of `down_min`: the position of the maximum
(last) element of a subtree.  The C API exposes no reverse-begin helper; a
caller reaches this position as the last node visited by forward iteration.
Backward iteration with `map_prev` starts here. -/
def down_max : Tree κ β → Path κ β → Option (Loc κ β)
  | .nil, _ => none
  | .node l k v .nil h, p => some (.node l k v .nil h, p)
  | .node l k v (.node a b c d e) h, p =>
      down_max (.node a b c d e) (.inr l k v p h)

/-- C `map_begin` (non-null map): `subtree_min(m->root)`, NULL if empty. -/
def map_begin (m : map_t κ β) : Option (Loc κ β) := down_min m.root .top

/-- Ascent step of C `map_next`: `p = it->parent; while (p && p->right == cur)
{ cur = p; p = p->parent; } return p;` — climb while the current node is a
right child, then return the parent reached from its left child (or the end
sentinel at the root). -/
def up_right : Tree κ β → Path κ β → Option (Loc κ β)
  | _, .top => none
  | t, .inl p k v r h => some (.node t k v r h, p)
  | t, .inr l k v p h => up_right (.node l k v t h) p

/-- Ascent step of C `map_prev`, mirror of `up_right`: climb while the
current node is a left child. -/
def up_left : Tree κ β → Path κ β → Option (Loc κ β)
  | _, .top => none
  | t, .inr l k v p h => some (.node l k v t h, p)
  | t, .inl p k v r h => up_left (.node t k v r h) p

/-- C `map_next`: NULL stays NULL; a node with a right child advances to the
minimum of the right subtree; otherwise ascend via `up_right`. -/
def map_next : Option (Loc κ β) → Option (Loc κ β)
  | none => none
  | some (.nil, _) => none
  | some (.node l k v r h, p) =>
      match r with
      | .nil => up_right (.node l k v .nil h) p
      | .node a b c d e => down_min (.node a b c d e) (.inr l k v p h)

/-- C `map_prev`: NULL stays NULL; a node with a left child retreats to the
maximum of the left subtree; otherwise ascend via `up_left`. -/
def map_prev : Option (Loc κ β) → Option (Loc κ β)
  | none => none
  | some (.nil, _) => none
  | some (.node l k v r h, p) =>
      match l with
      | .nil => up_left (.node .nil k v r h) p
      | .node a b c d e => down_max (.node a b c d e) (.inl p k v r h)

/-- Key under the iterator, C `map_iter_key` (NULL for the sentinel). -/
def map_iter_key : Option (Loc κ β) → Option κ
  | none => none
  | some (t, _) => root_key t

/-- Keys visited by repeatedly reading the current key and applying
`map_next`, with explicit fuel (the C loop `for (it = map_begin(m);
it != map_end(m); it = map_next(it))`; any fuel at least the number of
remaining elements is enough). -/
def iter_fwd : Nat → Option (Loc κ β) → List κ
  | 0, _ => []
  | _ + 1, none => []
  | _ + 1, some (.nil, _) => []
  | n + 1, some (.node l k v r h, p) =>
      k :: iter_fwd n (map_next (some (.node l k v r h, p)))

/-- Keys visited by repeatedly reading the current key and applying
`map_prev`, with explicit fuel. -/
def iter_bwd : Nat → Option (Loc κ β) → List κ
  | 0, _ => []
  | _ + 1, none => []
  | _ + 1, some (.nil, _) => []
  | n + 1, some (.node l k v r h, p) =>
      k :: iter_bwd n (map_prev (some (.node l k v r h, p)))

/-!
Null-handle layer.  Every public C function takes a `map_t *` that may be
NULL; `none` is the NULL handle.  A result of `none` from `map_find_h` marks
the execution dereferencing the null handle (undefined behaviour), because C
`map_find` — alone among the public operations — forwards the handle to
`find_node` without a null check, and `find_node` immediately reads
`m->root`.
-/

/-- C `map_insert` including the `if (!m) return -1;` guard. -/
def map_insert_h (m : Option (map_t κ β)) (k : κ) (v : β) :
    Int × Option (map_t κ β) :=
  match m with
  | none => (-1, none)
  | some mm => let res := map_insert mm k v; (res.1, some res.2)

/-- C `map_put` including the `if (!m) return -1;` guard. -/
def map_put_h (m : Option (map_t κ β)) (k : κ) (v : β) :
    Int × Option (map_t κ β) × List β :=
  match m with
  | none => (-1, none, [])
  | some mm => let res := map_put mm k v; (res.1, some res.2.1, res.2.2)

/-- C `map_erase` including the `if (!m) return 0;` guard. -/
def map_erase_h (m : Option (map_t κ β)) (k : κ) : Int × Option (map_t κ β) :=
  match m with
  | none => (0, none)
  | some mm => let res := map_erase mm k; (res.1, some res.2)

/-- C `map_size`: `m ? m->size : 0`. -/
def map_size_h (m : Option (map_t κ β)) : Nat :=
  match m with
  | none => 0
  | some mm => mm.size

/-- C `map_find` has no null-handle guard: it passes `m` straight to
`find_node`, whose first statement reads `m->root`.  On a NULL handle the
execution has no defined result, marked by the outer `none`; on a non-null
handle the result is the defined `map_find`. -/
def map_find_h (m : Option (map_t κ β)) (k : κ) : Option (Option β) :=
  match m with
  | none => none
  | some mm => some (map_find mm k)

/-- C `map_begin`: `m ? subtree_min(m->root) : NULL`. -/
def map_begin_h (m : Option (map_t κ β)) : Option (Loc κ β) :=
  match m with
  | none => none
  | some mm => map_begin mm

/-- C `map_end`: always NULL. -/
def map_end_h (_ : Option (map_t κ β)) : Option (Loc κ β) := none

/-- C `map_clear` including the `if (!m) return;` guard. -/
def map_clear_h (m : Option (map_t κ β)) : Option (map_t κ β) :=
  match m with
  | none => none
  | some mm => some (map_clear mm)

/-- C `map_destroy`: NULL is ignored; otherwise the handle is freed and
becomes invalid (no handle remains). -/
def map_destroy_h (_ : Option (map_t κ β)) : Option (map_t κ β) := none

/-!
Invariants of the data model (spec section 3) as executable predicates over
the embedded tree, and the in-order contents of a tree.
-/

/-- Entries of the tree in symmetric (in-order) sequence. -/
def inorder : Tree κ β → List (κ × β)
  | .nil => []
  | .node l k v r _ => inorder l ++ (k, v) :: inorder r

/-- Keys of the tree in symmetric (in-order) sequence. -/
def keys (t : Tree κ β) : List κ := (inorder t).map Prod.fst

/-- Every stored height field equals 1 + max of the children's stored
heights (with an absent child of height 0): the spec invariant
`height(node) = 1 + max(height(left), height(right))`. -/
def heights_ok : Tree κ β → Bool
  | .nil => true
  | .node l _ _ r h =>
      heights_ok l && heights_ok r &&
        decide (h = max (node_height l) (node_height r) + 1)

/-- Every node satisfies `|height(left) - height(right)| ≤ 1` on the stored
height fields: the AVL balance invariant of the spec. -/
def balanced_b : Tree κ β → Bool
  | .nil => true
  | .node l _ _ r _ =>
      balanced_b l && balanced_b r &&
        decide ((((node_height l : Int)) - node_height r).natAbs ≤ 1)

/-- Predicate `p` holds of every key in the tree. -/
def tree_all (p : κ → Bool) : Tree κ β → Bool
  | .nil => true
  | .node l k _ r _ => p k && tree_all p l && tree_all p r

/-- Binary-search-tree ordering with respect to the comparator: at every
node, all keys of the left subtree compare less and all keys of the right
subtree compare greater. -/
def bst_b : Tree κ β → Bool
  | .nil => true
  | .node l k _ r _ =>
      tree_all (fun x => decide (x < k)) l &&
        tree_all (fun x => decide (k < x)) r && bst_b l && bst_b r

/-- Full invariant of a map state: the three tree invariants plus the size
field counting the nodes reachable from the root. -/
def map_inv (m : map_t κ β) : Prop :=
  heights_ok m.root = true ∧ balanced_b m.root = true ∧ bst_b m.root = true ∧
    m.size = (inorder m.root).length

instance (m : map_t κ β) : Decidable (map_inv m) := by
  unfold map_inv; infer_instance

/-- Tree with the values erased but structure, keys and stored heights kept:
two trees with equal `strip` have the same shape. -/
def strip : Tree κ β → Tree κ Unit
  | .nil => .nil
  | .node l k _ r h => .node (strip l) k () (strip r) h

/-- Insertion into an association list sorted by keys, before the first
strictly larger key: the in-order contents of an AVL insertion. -/
def ins_list (k : κ) (v : β) : List (κ × β) → List (κ × β)
  | [] => [(k, v)]
  | (a, b) :: tl =>
      if k < a then (k, v) :: (a, b) :: tl else (a, b) :: ins_list k v tl

/-- Removal of the first entry with the given key from an association list:
the in-order contents of an AVL erase. -/
def del_list (k : κ) : List (κ × β) → List (κ × β)
  | [] => []
  | (a, b) :: tl => if a = k then tl else (a, b) :: del_list k tl

/-- Sequences of public mutating operations, for stating the state-machine
invariant (spec section 8: any finite sequence of insert/put/erase). -/
inductive Op (κ β : Type) where
  | ins (k : κ) (v : β) : Op κ β
  | put (k : κ) (v : β) : Op κ β
  | erase (k : κ) : Op κ β

/-- Apply one public mutating operation to a map state. -/
def apply_op (m : map_t κ β) : Op κ β → map_t κ β
  | .ins k v => (map_insert m k v).2
  | .put k v => (map_put m k v).2.1
  | .erase k => (map_erase m k).2

/-- Run a sequence of operations from a freshly created map. -/
def run_ops (vf : Bool) (ops : List (Op κ β)) : map_t κ β :=
  ops.foldl apply_op (map_create vf)

/-- Run a sequence of plain insertions from a freshly created map. -/
def run_inserts (vf : Bool) (ps : List (κ × β)) : map_t κ β :=
  ps.foldl (fun m p => (map_insert m p.1 p.2).2) (map_create vf)

/-- Keys that forward iteration will still visit once the current position's
node and right subtree are exhausted: for each ancestor reached from its
left child, that ancestor's key followed by its right subtree. -/
def path_keys : Path κ β → List κ
  | .top => []
  | .inl p k _ r _ => k :: (keys r ++ path_keys p)
  | .inr _ _ _ p _ => path_keys p

/-- Keys from the current position to the end of forward iteration: the
current key, the right subtree, then the pending ancestors. -/
def upcoming : Option (Loc κ β) → List κ
  | none => []
  | some (.nil, _) => []
  | some (.node _ k _ r _, p) => k :: (keys r ++ path_keys p)

/-- Mirror of `path_keys` for backward iteration. -/
def path_keys_r : Path κ β → List κ
  | .top => []
  | .inr l k _ p _ => k :: ((keys l).reverse ++ path_keys_r p)
  | .inl p _ _ _ _ => path_keys_r p

/-- Keys from the current position to the end of backward iteration. -/
def upcoming_r : Option (Loc κ β) → List κ
  | none => []
  | some (.nil, _) => []
  | some (.node l k _ _ _, p) => k :: ((keys l).reverse ++ path_keys_r p)

end AvlMap
namespace AvlPool

/-!
Fixed-capacity pool variant (`u32map_t` at the bottom of the C file):
`uint32_t` keys, values of an arbitrary type (function pointers in the C),
`MAX_NODES` statically allocated slots, no callbacks.  The tree algorithm —
`node_height`, `update_height`, rotations, `rebalance_at`, descent, erase —
is textually the same as the generic one, so we reuse the `AvlMap` tree
operations at key type `Nat` (the keys are only ever compared, never
computed with, and `u32_cmp`-style comparison of `uint32_t` values is the
order on the corresponding naturals).  A pool slot is `in_use` exactly when
it holds a node of the tree, so exactly `size` slots are in use and
`node_alloc`'s linear scan succeeds if and only if `size < MAX_NODES`.
-/

open AvlMap

/-- C `MAX_NODES`: capacity of the static pool. -/
def MAX_NODES : Nat := 256

/-- C `u32map_t`: pool-backed map with root pointer and element count. -/
structure u32map_t (β : Type) where
  root : Tree Nat β
  size : Nat
deriving DecidableEq, Repr

/-- C `map_init`/`pool_init`: empty tree, all slots free. -/
def pool_init {β : Type} : u32map_t β := ⟨.nil, 0⟩

/-- C pool `map_insert`: the empty-root branch allocates first (`node_alloc`
fails, returning -1, when no slot is free, i.e. when `size` is already
`MAX_NODES`); otherwise the descent returns 0 on an equal key before any
allocation, and only then is a node allocated — on allocation failure the
function returns -1 with the map untouched, otherwise the node is attached
and the upward rebalancing loop runs exactly as in the generic version. -/
def pool_insert {β : Type} (m : u32map_t β) (k : Nat) (v : β) :
    Int × u32map_t β :=
  match m.root with
  | .nil =>
      if MAX_NODES ≤ m.size then (-1, m)
      else (1, ⟨.node .nil k v .nil 1, 1⟩)
  | .node l key val r h =>
      let res := insert_go k v (.node l key val r h)
      if res.1 = 0 then (0, m)
      else if MAX_NODES ≤ m.size then (-1, m)
      else (1, ⟨res.2, m.size + 1⟩)

/-- Run a list of pool insertions, collecting the returned statuses. -/
def pool_run {β : Type} : u32map_t β → List (Nat × β) → u32map_t β × List Int
  | m, [] => (m, [])
  | m, (k, v) :: ps =>
      let res := pool_insert m k v
      let rest := pool_run res.2 ps
      (rest.1, res.1 :: rest.2)

/-- Invariant of a pool map state: the three tree invariants plus the size
field counting the nodes (equivalently, the in-use pool slots). -/
def pool_inv {β : Type} (m : u32map_t β) : Prop :=
  heights_ok m.root = true ∧ balanced_b m.root = true ∧ bst_b m.root = true ∧
    m.size = (inorder m.root).length

end AvlPool

namespace AvlMap

variable {κ β : Type} [LinearOrder κ]

/-!
Basic lemmas: decompositions of the invariant predicates and the list-level
helpers.
-/

theorem node_height_nil : node_height (.nil : Tree κ β) = 0 := rfl

theorem node_height_node (l : Tree κ β) (k : κ) (v : β) (r : Tree κ β) (h : Nat) :
    node_height (.node l k v r h) = h := rfl

theorem left_of_node (l : Tree κ β) (k : κ) (v : β) (r : Tree κ β) (h : Nat) :
    left_of (.node l k v r h) = l := rfl

theorem right_of_node (l : Tree κ β) (k : κ) (v : β) (r : Tree κ β) (h : Nat) :
    right_of (.node l k v r h) = r := rfl

theorem keys_nil : keys (.nil : Tree κ β) = [] := rfl

theorem keys_node (l : Tree κ β) (k : κ) (v : β) (r : Tree κ β) (h : Nat) :
    keys (.node l k v r h) = keys l ++ k :: keys r := by
  simp [keys, inorder]

theorem mem_keys {t : Tree κ β} {x : κ} :
    x ∈ keys t ↔ ∃ v, (x, v) ∈ inorder t := by
  constructor
  · intro hx
    obtain ⟨⟨a, b⟩, hm, he⟩ := List.mem_map.mp hx
    obtain rfl : a = x := he
    exact ⟨b, hm⟩
  · rintro ⟨v, hv⟩
    exact List.mem_map.mpr ⟨(x, v), hv, rfl⟩

theorem heights_ok_node {l : Tree κ β} {k : κ} {v : β} {r : Tree κ β} {h : Nat} :
    heights_ok (.node l k v r h) = true ↔
      heights_ok l = true ∧ heights_ok r = true ∧
        h = max (node_height l) (node_height r) + 1 := by
  simp [heights_ok, Bool.and_eq_true, and_assoc]

theorem balanced_b_node {l : Tree κ β} {k : κ} {v : β} {r : Tree κ β} {h : Nat} :
    balanced_b (.node l k v r h) = true ↔
      balanced_b l = true ∧ balanced_b r = true ∧
        (((node_height l : Int)) - node_height r).natAbs ≤ 1 := by
  simp [balanced_b, Bool.and_eq_true, and_assoc]

theorem tree_all_iff {p : κ → Bool} {t : Tree κ β} :
    tree_all p t = true ↔ ∀ x ∈ keys t, p x = true := by
  induction t with
  | nil => simp [tree_all, keys_nil]
  | node l k v r h ihl ihr =>
      simp only [tree_all, Bool.and_eq_true, ihl, ihr, keys_node, List.mem_append,
        List.mem_cons]
      constructor
      · rintro ⟨⟨hk, hl⟩, hr⟩ x hx
        rcases hx with hx | hx | hx
        · exact hl x hx
        · exact hx ▸ hk
        · exact hr x hx
      · intro hall
        exact ⟨⟨hall k (Or.inr (Or.inl rfl)), fun x hx => hall x (Or.inl hx)⟩,
          fun x hx => hall x (Or.inr (Or.inr hx))⟩

theorem bst_b_node {l : Tree κ β} {k : κ} {v : β} {r : Tree κ β} {h : Nat} :
    bst_b (.node l k v r h) = true ↔
      (∀ x ∈ keys l, x < k) ∧ (∀ x ∈ keys r, k < x) ∧
        bst_b l = true ∧ bst_b r = true := by
  simp [bst_b, Bool.and_eq_true, tree_all_iff, and_assoc]

theorem bst_b_iff_pairwise {t : Tree κ β} :
    bst_b t = true ↔ (keys t).Pairwise (· < ·) := by
  induction t with
  | nil => simp [bst_b, keys_nil]
  | node l k v r h ihl ihr =>
      rw [bst_b_node, keys_node, List.pairwise_append]
      simp only [List.pairwise_cons, List.mem_cons, ihl, ihr]
      constructor
      · rintro ⟨hlk, hkr, hl, hr⟩
        refine ⟨hl, ⟨hkr, hr⟩, ?_⟩
        rintro a ha b (rfl | hb)
        · exact hlk a ha
        · exact lt_trans (hlk a ha) (hkr b hb)
      · rintro ⟨hl, ⟨hkr, hr⟩, hcross⟩
        exact ⟨fun a ha => hcross a ha k (Or.inl rfl), hkr, hl, hr⟩

theorem ins_list_append_lt {k key : κ} (v : β) {val : β} (L R : List (κ × β))
    (hlt : k < key) :
    ins_list k v (L ++ (key, val) :: R) = ins_list k v L ++ (key, val) :: R := by
  induction L with
  | nil => simp [ins_list, hlt]
  | cons p tl ih =>
      obtain ⟨a, b⟩ := p
      by_cases hka : k < a <;> simp [ins_list, hka, ih]

theorem ins_list_append_ge {k key : κ} (v : β) {val : β} (L R : List (κ × β))
    (hge : ¬ k < key) (hall : ∀ a ∈ L.map Prod.fst, ¬ k < a) :
    ins_list k v (L ++ (key, val) :: R) = L ++ (key, val) :: ins_list k v R := by
  induction L with
  | nil => simp [ins_list, hge]
  | cons p tl ih =>
      obtain ⟨a, b⟩ := p
      have hka : ¬ k < a := hall a (by simp)
      simp only [List.cons_append, ins_list, hka, if_neg, ite_false, List.append_eq]
      rw [ih (fun x hx => hall x (by simp [hx]))]

theorem ins_list_mem {k : κ} {v : β} {L : List (κ × β)} {p : κ × β} :
    p ∈ ins_list k v L ↔ p = (k, v) ∨ p ∈ L := by
  induction L with
  | nil => simp [ins_list]
  | cons q tl ih =>
      obtain ⟨a, b⟩ := q
      by_cases hka : k < a <;> simp [ins_list, hka, ih] <;> tauto

theorem ins_list_map_fst_mem {k : κ} {v : β} {L : List (κ × β)} {x : κ} :
    x ∈ (ins_list k v L).map Prod.fst ↔ x = k ∨ x ∈ L.map Prod.fst := by
  simp only [List.mem_map]
  constructor
  · rintro ⟨p, hp, rfl⟩
    rcases ins_list_mem.mp hp with rfl | hp
    · exact Or.inl rfl
    · exact Or.inr ⟨p, hp, rfl⟩
  · rintro (rfl | ⟨p, hp, rfl⟩)
    · exact ⟨(x, v), ins_list_mem.mpr (Or.inl rfl), rfl⟩
    · exact ⟨p, ins_list_mem.mpr (Or.inr hp), rfl⟩

theorem ins_list_pairwise {k : κ} {v : β} {L : List (κ × β)}
    (hs : (L.map Prod.fst).Pairwise (· < ·)) (hk : k ∉ L.map Prod.fst) :
    ((ins_list k v L).map Prod.fst).Pairwise (· < ·) := by
  induction L with
  | nil => simp [ins_list]
  | cons q tl ih =>
      obtain ⟨a, b⟩ := q
      have hs0 := hs
      simp only [List.map_cons, List.pairwise_cons] at hs
      simp only [List.map_cons, List.mem_cons] at hk
      push_neg at hk
      by_cases hka : k < a
      · have he : ((ins_list k v ((a, b) :: tl)).map Prod.fst) =
            k :: a :: tl.map Prod.fst := by
          simp [ins_list, hka]
        rw [he, List.pairwise_cons]
        refine ⟨?_, by simpa using hs0⟩
        intro x hx
        rcases List.mem_cons.mp hx with rfl | hx
        · exact hka
        · exact lt_trans hka (hs.1 x hx)
      · have hak : a < k := lt_of_le_of_ne (not_lt.mp hka) (Ne.symm hk.1)
        have he : ((ins_list k v ((a, b) :: tl)).map Prod.fst) =
            a :: (ins_list k v tl).map Prod.fst := by
          simp [ins_list, hka]
        rw [he, List.pairwise_cons]
        refine ⟨?_, ih hs.2 hk.2⟩
        intro x hx
        rcases ins_list_map_fst_mem.mp hx with rfl | hx
        · exact hak
        · exact hs.1 x hx

theorem ins_list_length {k : κ} {v : β} {L : List (κ × β)} :
    (ins_list k v L).length = L.length + 1 := by
  induction L with
  | nil => rfl
  | cons q tl ih =>
      obtain ⟨a, b⟩ := q
      by_cases hka : k < a <;> simp [ins_list, hka, ih]

theorem del_list_sublist {k : κ} (L : List (κ × β)) :
    (del_list k L).Sublist L := by
  induction L with
  | nil => simp [del_list]
  | cons q tl ih =>
      obtain ⟨a, b⟩ := q
      by_cases hak : a = k
      · simpa [del_list, hak] using List.sublist_cons_self (a, b) tl
      · simpa [del_list, hak] using ih.cons₂ (a, b)

theorem del_list_append_not_mem {k : κ} {L : List (κ × β)} (M : List (κ × β))
    (h : ∀ a ∈ L.map Prod.fst, a ≠ k) :
    del_list k (L ++ M) = L ++ del_list k M := by
  induction L with
  | nil => rfl
  | cons q tl ih =>
      obtain ⟨a, b⟩ := q
      have hak : a ≠ k := h a (by simp)
      simp only [List.cons_append, del_list, hak, if_neg, ite_false, List.append_eq]
      rw [ih (fun x hx => h x (by simp [hx]))]

theorem del_list_append_mem {k : κ} {L : List (κ × β)} (M : List (κ × β))
    (h : k ∈ L.map Prod.fst) :
    del_list k (L ++ M) = del_list k L ++ M := by
  induction L with
  | nil => simp at h
  | cons q tl ih =>
      obtain ⟨a, b⟩ := q
      by_cases hak : a = k
      · simp [del_list, hak]
      · simp only [List.map_cons, List.mem_cons] at h
        rcases h with h | h
        · exact absurd h.symm hak
        · simp only [List.cons_append, del_list, hak, if_neg, ite_false, List.append_eq]
          rw [ih h]

/-- Central rebalancing lemma: if both children satisfy the height and
balance invariants and their stored heights differ by at most 2 (the only
situation in which the C code reaches `rebalance_at`), then the rebalanced
node satisfies the invariants again, keeps the in-order contents, and its
height is `max(child heights)` or that plus 1 — exactly `max + 1` when no
rotation fires. -/
theorem rebalance_spec (l r : Tree κ β) (k : κ) (v : β) (h : Nat)
    (hhl : heights_ok l = true) (hhr : heights_ok r = true)
    (hbl : balanced_b l = true) (hbr : balanced_b r = true)
    (d1 : node_height l ≤ node_height r + 2)
    (d2 : node_height r ≤ node_height l + 2) :
    heights_ok (rebalance_at (.node l k v r h)) = true ∧
    balanced_b (rebalance_at (.node l k v r h)) = true ∧
    inorder (rebalance_at (.node l k v r h)) = inorder l ++ (k, v) :: inorder r ∧
    max (node_height l) (node_height r) ≤
      node_height (rebalance_at (.node l k v r h)) ∧
    node_height (rebalance_at (.node l k v r h)) ≤
      max (node_height l) (node_height r) + 1 ∧
    (node_height l ≤ node_height r + 1 → node_height r ≤ node_height l + 1 →
      node_height (rebalance_at (.node l k v r h)) =
        max (node_height l) (node_height r) + 1) := by
  by_cases hL : node_height r + 2 ≤ node_height l
  · -- left heavy: balance factor is exactly +2
    rcases l with _ | ⟨a, x, vx, b, hl⟩
    · simp only [node_height_nil, node_height_node] at hL; omega
    · rw [heights_ok_node] at hhl
      obtain ⟨hha, hhb, hhl_eq⟩ := hhl
      rw [balanced_b_node] at hbl
      obtain ⟨bba, bbb, hab⟩ := hbl
      simp only [node_height_nil, node_height_node] at hL d1 d2 ⊢
      by_cases hc : node_height b ≤ node_height a
      · -- LL: single right rotation
        have hrw : rebalance_at (.node (.node a x vx b hl) k v r h) =
            .node a x vx (.node b k v r (max (node_height b) (node_height r) + 1))
              (max (node_height a) (max (node_height b) (node_height r) + 1) + 1) := by
          simp only [rebalance_at, node_height_nil, node_height_node, left_of_node, right_of_node]
          rw [if_pos (by omega), if_pos hc]
          simp [rotate_right, node_height_nil, node_height_node]
        rw [hrw]
        refine ⟨?_, ?_, ?_, ?_, ?_, ?_⟩
        · simp only [heights_ok_node, node_height_nil, node_height_node]
          exact ⟨hha, ⟨hhb, hhr, by trivial⟩, by trivial⟩
        · simp only [balanced_b_node, node_height_nil, node_height_node]
          exact ⟨bba, ⟨bbb, hbr, by omega⟩, by omega⟩
        · simp [inorder]
        · simp only [node_height_nil, node_height_node]; omega
        · simp only [node_height_nil, node_height_node]; omega
        · intro hx _; omega
      · -- LR: rotate the left child left, then rotate right
        rcases b with _ | ⟨p, z, vz, q, hb⟩
        · simp only [node_height_nil, node_height_node] at hc; omega
        · rw [heights_ok_node] at hhb
          obtain ⟨hhp, hhq, hhb_eq⟩ := hhb
          rw [balanced_b_node] at bbb
          obtain ⟨bbp, bbq, hpq⟩ := bbb
          simp only [node_height_nil, node_height_node] at hc hhl_eq hab ⊢
          have hrw : rebalance_at
              (.node (.node a x vx (.node p z vz q hb) hl) k v r h) =
              .node (.node a x vx p (max (node_height a) (node_height p) + 1)) z vz
                (.node q k v r (max (node_height q) (node_height r) + 1))
                (max (max (node_height a) (node_height p) + 1)
                  (max (node_height q) (node_height r) + 1) + 1) := by
            simp only [rebalance_at, node_height_nil, node_height_node, left_of_node, right_of_node]
            rw [if_pos (by omega), if_neg (by omega)]
            simp [rotate_left, rotate_right, node_height_nil, node_height_node]
          rw [hrw]
          refine ⟨?_, ?_, ?_, ?_, ?_, ?_⟩
          · simp only [heights_ok_node, node_height_nil, node_height_node]
            exact ⟨⟨hha, hhp, by trivial⟩, ⟨hhq, hhr, by trivial⟩, by trivial⟩
          · simp only [balanced_b_node, node_height_nil, node_height_node]
            exact ⟨⟨bba, bbp, by omega⟩, ⟨bbq, hbr, by omega⟩, by omega⟩
          · simp [inorder]
          · simp only [node_height_nil, node_height_node]; omega
          · simp only [node_height_nil, node_height_node]; omega
          · intro hx _; omega
  · by_cases hR : node_height l + 2 ≤ node_height r
    · -- right heavy: balance factor is exactly -2
      rcases r with _ | ⟨p, y, vy, c, hr⟩
      · simp only [node_height_nil, node_height_node] at hR; omega
      · rw [heights_ok_node] at hhr
        obtain ⟨hhp, hhc, hhr_eq⟩ := hhr
        rw [balanced_b_node] at hbr
        obtain ⟨bbp, bbc, hpc⟩ := hbr
        simp only [node_height_nil, node_height_node] at hR d1 d2 ⊢
        by_cases hc : node_height p ≤ node_height c
        · -- RR: single left rotation
          have hrw : rebalance_at (.node l k v (.node p y vy c hr) h) =
              .node (.node l k v p (max (node_height l) (node_height p) + 1)) y vy c
                (max (max (node_height l) (node_height p) + 1) (node_height c) + 1) := by
            simp only [rebalance_at, node_height_nil, node_height_node, left_of_node, right_of_node]
            rw [if_neg (by omega), if_pos (by omega), if_pos hc]
            simp [rotate_left, node_height_nil, node_height_node]
          rw [hrw]
          refine ⟨?_, ?_, ?_, ?_, ?_, ?_⟩
          · simp only [heights_ok_node, node_height_nil, node_height_node]
            exact ⟨⟨hhl, hhp, by trivial⟩, hhc, by trivial⟩
          · simp only [balanced_b_node, node_height_nil, node_height_node]
            exact ⟨⟨hbl, bbp, by omega⟩, bbc, by omega⟩
          · simp [inorder]
          · simp only [node_height_nil, node_height_node]; omega
          · simp only [node_height_nil, node_height_node]; omega
          · intro _ hx; omega
        · -- RL: rotate the right child right, then rotate left
          rcases p with _ | ⟨p1, w, vw, p2, hp⟩
          · simp only [node_height_nil, node_height_node] at hc; omega
          · rw [heights_ok_node] at hhp
            obtain ⟨hh1, hh2, hhp_eq⟩ := hhp
            rw [balanced_b_node] at bbp
            obtain ⟨bb1, bb2, h12⟩ := bbp
            simp only [node_height_nil, node_height_node] at hc hhr_eq hpc ⊢
            have hrw : rebalance_at
                (.node l k v (.node (.node p1 w vw p2 hp) y vy c hr) h) =
                .node (.node l k v p1 (max (node_height l) (node_height p1) + 1)) w vw
                  (.node p2 y vy c (max (node_height p2) (node_height c) + 1))
                  (max (max (node_height l) (node_height p1) + 1)
                    (max (node_height p2) (node_height c) + 1) + 1) := by
              simp only [rebalance_at, node_height_nil, node_height_node, left_of_node, right_of_node]
              rw [if_neg (by omega), if_pos (by omega), if_neg (by omega)]
              simp [rotate_left, rotate_right, node_height_nil, node_height_node]
            rw [hrw]
            refine ⟨?_, ?_, ?_, ?_, ?_, ?_⟩
            · simp only [heights_ok_node, node_height_nil, node_height_node]
              exact ⟨⟨hhl, hh1, by trivial⟩, ⟨hh2, hhc, by trivial⟩, by trivial⟩
            · simp only [balanced_b_node, node_height_nil, node_height_node]
              exact ⟨⟨hbl, bb1, by omega⟩, ⟨bb2, hhc ▸ bbc, by omega⟩, by omega⟩
            · simp [inorder]
            · simp only [node_height_nil, node_height_node]; omega
            · simp only [node_height_nil, node_height_node]; omega
            · intro _ hx; omega
    · -- already balanced: only the height field is recomputed
      have hrw : rebalance_at (.node l k v r h) =
          .node l k v r (max (node_height l) (node_height r) + 1) := by
        simp only [rebalance_at]
        rw [if_neg (by omega), if_neg (by omega)]
      rw [hrw]
      refine ⟨?_, ?_, ?_, ?_, ?_, ?_⟩
      · simp only [heights_ok_node]
        exact ⟨hhl, hhr, by trivial⟩
      · simp only [balanced_b_node]
        exact ⟨hbl, hbr, by omega⟩
      · simp [inorder]
      · simp only [node_height_nil, node_height_node]; omega
      · simp only [node_height_nil, node_height_node]; omega
      · intro _ _; simp only [node_height_node]

/-- Full specification of the insertion core: the status is 0 exactly when
the key is already present (and then the tree is returned unchanged); on
status 1 the invariants are preserved, the height grows by at most one and
never shrinks, and the in-order contents are the sorted insertion of the new
entry. -/
theorem insert_go_spec (k : κ) (v : β) (t : Tree κ β)
    (hh : heights_ok t = true) (hb : balanced_b t = true) (hs : bst_b t = true) :
    ((insert_go k v t).1 = 0 ∨ (insert_go k v t).1 = 1) ∧
    ((insert_go k v t).1 = 0 ↔ k ∈ keys t) ∧
    ((insert_go k v t).1 = 0 → (insert_go k v t).2 = t) ∧
    ((insert_go k v t).1 = 1 →
      heights_ok (insert_go k v t).2 = true ∧
      balanced_b (insert_go k v t).2 = true ∧
      node_height t ≤ node_height (insert_go k v t).2 ∧
      node_height (insert_go k v t).2 ≤ node_height t + 1 ∧
      inorder (insert_go k v t).2 = ins_list k v (inorder t)) := by
  induction t with
  | nil =>
      refine ⟨Or.inr rfl, ?_, ?_, ?_⟩
      · simp [insert_go, keys_nil]
      · intro h0; simp [insert_go] at h0
      · intro _
        exact ⟨rfl, rfl, by simp [insert_go, node_height_nil, node_height_node],
          by simp [insert_go, node_height_nil, node_height_node],
          by simp [insert_go, inorder, ins_list]⟩
  | node l key val r h ihl ihr =>
      rw [heights_ok_node] at hh
      obtain ⟨hhl, hhr, hheq⟩ := hh
      rw [balanced_b_node] at hb
      obtain ⟨hbl, hbr, hbal⟩ := hb
      rw [bst_b_node] at hs
      obtain ⟨hsl, hsr, hssl, hssr⟩ := hs
      rcases lt_trichotomy k key with hlt | heq | hgt
      · -- descend left
        have hne : k ≠ key := ne_of_lt hlt
        obtain ⟨hd01, hdmem, hd0, hd1⟩ := ihl hhl hbl hssl
        have hun : insert_go k v (.node l key val r h) =
            if (insert_go k v l).1 = 1
            then (1, rebalance_at (.node (insert_go k v l).2 key val r h))
            else ((insert_go k v l).1, .node l key val r h) := by
          simp only [insert_go, if_neg hne, if_pos hlt]
        rcases hd01 with h0 | h1
        · rw [hun, if_neg (by rw [h0]; norm_num)]
          refine ⟨Or.inl h0, ?_, fun _ => rfl, ?_⟩
          · rw [keys_node]
            simp only [List.mem_append, List.mem_cons]
            exact ⟨fun h' => Or.inl (hdmem.mp h'), fun _ => h0⟩
          · intro h1'; rw [h0] at h1'; norm_num at h1'
        · rw [hun, if_pos h1]
          obtain ⟨ih_h, ih_b, ih_lo, ih_hi, ih_in⟩ := hd1 h1
          have hreb := rebalance_spec (insert_go k v l).2 r key val h ih_h hhr ih_b hbr
            (by omega) (by omega)
          obtain ⟨rb_h, rb_b, rb_in, rb_lo, rb_hi, rb_eq⟩ := hreb
          refine ⟨Or.inr rfl, ?_, ?_, ?_⟩
          · constructor
            · intro h'; norm_num at h'
            · intro hmem
              rw [keys_node] at hmem
              simp only [List.mem_append, List.mem_cons] at hmem
              rcases hmem with hmem | hmem | hmem
              · have hz := hdmem.mpr hmem; rw [h1] at hz; norm_num at hz
              · exact absurd hmem hne
              · exact absurd hlt (not_lt.mpr (le_of_lt (hsr k hmem)))
          · intro h'; norm_num at h'
          · intro _
            refine ⟨rb_h, rb_b, ?_, ?_, ?_⟩
            · simp only [node_height_node]
              by_cases hd : node_height (insert_go k v l).2 ≤ node_height r + 1 ∧
                  node_height r ≤ node_height (insert_go k v l).2 + 1
              · rw [rb_eq hd.1 hd.2]; omega
              · push_neg at hd; omega
            · simp only [node_height_node]; omega
            · rw [rb_in, ih_in, inorder]
              exact (ins_list_append_lt v (inorder l) (inorder r) hlt).symm
      · -- equal key: no modification
        subst heq
        have hun : insert_go k v (.node l k val r h) = (0, .node l k val r h) := by
          simp [insert_go]
        rw [hun]
        refine ⟨Or.inl rfl, ?_, fun _ => rfl, ?_⟩
        · simp [keys_node]
        · intro h'; norm_num at h'
      · -- descend right
        have hne : k ≠ key := ne_of_gt hgt
        have hnlt : ¬ k < key := not_lt.mpr (le_of_lt hgt)
        obtain ⟨hd01, hdmem, hd0, hd1⟩ := ihr hhr hbr hssr
        have hun : insert_go k v (.node l key val r h) =
            if (insert_go k v r).1 = 1
            then (1, rebalance_at (.node l key val (insert_go k v r).2 h))
            else ((insert_go k v r).1, .node l key val r h) := by
          simp only [insert_go, if_neg hne, if_neg hnlt]
        rcases hd01 with h0 | h1
        · rw [hun, if_neg (by rw [h0]; norm_num)]
          refine ⟨Or.inl h0, ?_, fun _ => rfl, ?_⟩
          · rw [keys_node]
            simp only [List.mem_append, List.mem_cons]
            exact ⟨fun h' => Or.inr (Or.inr (hdmem.mp h')), fun _ => h0⟩
          · intro h1'; rw [h0] at h1'; norm_num at h1'
        · rw [hun, if_pos h1]
          obtain ⟨ih_h, ih_b, ih_lo, ih_hi, ih_in⟩ := hd1 h1
          have hreb := rebalance_spec l (insert_go k v r).2 key val h hhl ih_h hbl ih_b
            (by omega) (by omega)
          obtain ⟨rb_h, rb_b, rb_in, rb_lo, rb_hi, rb_eq⟩ := hreb
          refine ⟨Or.inr rfl, ?_, ?_, ?_⟩
          · constructor
            · intro h'; norm_num at h'
            · intro hmem
              rw [keys_node] at hmem
              simp only [List.mem_append, List.mem_cons] at hmem
              rcases hmem with hmem | hmem | hmem
              · exact absurd hgt (not_lt.mpr (le_of_lt (hsl k hmem)))
              · exact absurd hmem hne
              · have hz := hdmem.mpr hmem; rw [h1] at hz; norm_num at hz
          · intro h'; norm_num at h'
          · intro _
            refine ⟨rb_h, rb_b, ?_, ?_, ?_⟩
            · simp only [node_height_node]
              by_cases hd : node_height l ≤ node_height (insert_go k v r).2 + 1 ∧
                  node_height (insert_go k v r).2 ≤ node_height l + 1
              · rw [rb_eq hd.1 hd.2]; omega
              · push_neg at hd; omega
            · simp only [node_height_node]; omega
            · rw [rb_in, ih_in, inorder]
              exact (ins_list_append_ge v (inorder l) (inorder r) hnlt
                (fun a ha => not_lt.mpr (le_of_lt (lt_trans (hsl a ha) hgt)))).symm

theorem del_list_length {k : κ} {L : List (κ × β)} (h : k ∈ L.map Prod.fst) :
    (del_list k L).length + 1 = L.length := by
  induction L with
  | nil => simp at h
  | cons q tl ih =>
      obtain ⟨a, b⟩ := q
      by_cases hak : a = k
      · simp [del_list, hak]
      · simp only [List.map_cons, List.mem_cons] at h
        rcases h with h | h
        · exact absurd h.symm hak
        · simp only [del_list, hak, if_neg, ite_false, List.length_cons]
          rw [← ih h]

/-- Height bookkeeping for erase: if one child's stored height dropped by at
most one and the node is rebalanced, the rebalanced subtree's height is
between the old height minus one and the old height. -/
theorem erase_height_bounds {hl2 hl hr g : Nat}
    (e1 : hl2 ≤ hl) (e2 : hl ≤ hl2 + 1)
    (b1 : hl ≤ hr + 1) (b2 : hr ≤ hl + 1)
    (lo : max hl2 hr ≤ g) (hi : g ≤ max hl2 hr + 1)
    (heq : hl2 ≤ hr + 1 → hr ≤ hl2 + 1 → g = max hl2 hr + 1) :
    g ≤ max hl hr + 1 ∧ max hl hr + 1 ≤ g + 1 := by
  by_cases hd : hl2 ≤ hr + 1 ∧ hr ≤ hl2 + 1
  · have hg := heq hd.1 hd.2
    constructor <;> omega
  · push_neg at hd
    constructor <;> omega

/-- Specification of successor removal: on a non-empty subtree satisfying the
height and balance invariants, `pop_min` returns the head of the in-order
sequence (the minimum entry) together with the remaining subtree, which
satisfies the invariants again and whose height shrinks by at most one. -/
theorem pop_min_spec (t : Tree κ β) (hne : t ≠ .nil)
    (hh : heights_ok t = true) (hb : balanced_b t = true) :
    ∃ mk mv t2, pop_min t = some (mk, mv, t2) ∧
      inorder t = (mk, mv) :: inorder t2 ∧
      heights_ok t2 = true ∧ balanced_b t2 = true ∧
      node_height t2 ≤ node_height t ∧ node_height t ≤ node_height t2 + 1 := by
  induction t with
  | nil => exact absurd rfl hne
  | node l k v r h ihl ihr =>
      rw [heights_ok_node] at hh
      obtain ⟨hhl, hhr, hheq⟩ := hh
      rw [balanced_b_node] at hb
      obtain ⟨hbl, hbr, hbal⟩ := hb
      rcases l with _ | ⟨a, x, vx, b, hl⟩
      · -- leftmost node found: splice the right child into its place
        refine ⟨k, v, r, rfl, by simp [inorder], hhr, hbr, ?_, ?_⟩
        · simp only [node_height_nil, node_height_node] at hheq hbal ⊢; omega
        · simp only [node_height_nil, node_height_node] at hheq hbal ⊢; omega
      · obtain ⟨mk, mv, l2, hpop, hin, hh2, hb2, hlo, hhi⟩ :=
          ihl (by simp) hhl hbl
        simp only [node_height_node] at hheq hbal hlo hhi
        have hun : pop_min (.node (.node a x vx b hl) k v r h) =
            some (mk, mv, rebalance_at (.node l2 k v r h)) := by
          simp only [pop_min, hpop]
        obtain ⟨rb_h, rb_b, rb_in, rb_lo, rb_hi, rb_eq⟩ :=
          rebalance_spec l2 r k v h hh2 hhr hb2 hbr (by omega) (by omega)
        have hbd := erase_height_bounds hlo hhi (by omega) (by omega) rb_lo rb_hi rb_eq
        refine ⟨mk, mv, _, hun, ?_, rb_h, rb_b, ?_, ?_⟩
        · rw [inorder, hin, rb_in]
          simp
        · simp only [node_height_node]; omega
        · simp only [node_height_node]; omega

/-- Specification of the erase core: on a missing key nothing happens and the
C returns 0; on a present key the node is removed, the invariants are
preserved, the height shrinks by at most one, and the in-order contents lose
exactly the entry of the erased key. -/
theorem erase_go_spec (k : κ) (t : Tree κ β)
    (hh : heights_ok t = true) (hb : balanced_b t = true) (hs : bst_b t = true) :
    (k ∉ keys t → erase_go k t = none) ∧
    (k ∈ keys t → ∃ t2, erase_go k t = some t2 ∧
      heights_ok t2 = true ∧ balanced_b t2 = true ∧
      node_height t2 ≤ node_height t ∧ node_height t ≤ node_height t2 + 1 ∧
      inorder t2 = del_list k (inorder t)) := by
  induction t with
  | nil => exact ⟨fun _ => rfl, fun hmem => by simp [keys_nil] at hmem⟩
  | node l key val r h ihl ihr =>
      rw [heights_ok_node] at hh
      obtain ⟨hhl, hhr, hheq⟩ := hh
      rw [balanced_b_node] at hb
      obtain ⟨hbl, hbr, hbal⟩ := hb
      rw [bst_b_node] at hs
      obtain ⟨hsl, hsr, hssl, hssr⟩ := hs
      rcases lt_trichotomy k key with hlt | heq | hgt
      · -- descend left
        have hne : k ≠ key := ne_of_lt hlt
        obtain ⟨ihn, ihs⟩ := ihl hhl hbl hssl
        constructor
        · intro hnm
          have hnl : k ∉ keys l := by
            intro hx; exact hnm (by rw [keys_node]; simp [hx])
          simp only [erase_go, if_neg hne, if_pos hlt, ihn hnl]
        · intro hmem
          rw [keys_node] at hmem
          simp only [List.mem_append, List.mem_cons] at hmem
          have hml : k ∈ keys l := by
            rcases hmem with hx | hx | hx
            · exact hx
            · exact absurd hx hne
            · exact absurd hlt (not_lt.mpr (le_of_lt (hsr k hx)))
          obtain ⟨l2, hel, eh, eb, elo, ehi, ein⟩ := ihs hml
          have hun : erase_go k (.node l key val r h) =
              some (rebalance_at (.node l2 key val r h)) := by
            simp only [erase_go, if_neg hne, if_pos hlt, hel]
          obtain ⟨rb_h, rb_b, rb_in, rb_lo, rb_hi, rb_eq⟩ :=
            rebalance_spec l2 r key val h eh hhr eb hbr (by omega) (by omega)
          have hbd := erase_height_bounds elo ehi (by omega) (by omega) rb_lo rb_hi rb_eq
          refine ⟨_, hun, rb_h, rb_b, ?_, ?_, ?_⟩
          · simp only [node_height_node]; omega
          · simp only [node_height_node]; omega
          · rw [rb_in, ein, inorder]
            have := del_list_append_mem (M := (key, val) :: inorder r)
              (by simpa [keys] using hml)
            rw [this]
      · -- equal key: remove this node
        subst heq
        constructor
        · intro hnm; exact absurd (by rw [keys_node]; simp) hnm
        · intro _
          rcases l with _ | ⟨a, x, vx, b, hl⟩
          · -- no left child: splice the right child
            refine ⟨r, by simp [erase_go], hhr, hbr, ?_, ?_, ?_⟩
            · simp only [node_height_nil, node_height_node] at hheq hbal ⊢; omega
            · simp only [node_height_nil, node_height_node] at hheq hbal ⊢; omega
            · simp [inorder, del_list]
          · rcases r with _ | ⟨p, y, vy, c, hr⟩
            · -- no right child: splice the left child
              refine ⟨.node a x vx b hl, by simp [erase_go], hhl, hbl, ?_, ?_, ?_⟩
              · simp only [node_height_nil, node_height_node] at hheq hbal ⊢; omega
              · simp only [node_height_nil, node_height_node] at hheq hbal ⊢; omega
              · show inorder (Tree.node a x vx b hl) =
                    del_list k (inorder (Tree.node a x vx b hl) ++
                      (k, val) :: inorder (Tree.nil : Tree κ β))
                rw [del_list_append_not_mem
                  (M := (k, val) :: inorder (Tree.nil : Tree κ β))
                  (fun a' ha' => ne_of_lt (hsl a' (by simpa [keys] using ha')))]
                simp [del_list, inorder]
            · -- two children: swap with the in-order successor and unlink it
              obtain ⟨mk, mv, r2, hpop, hin, hh2, hb2, hlo, hhi⟩ :=
                pop_min_spec (.node p y vy c hr) (by simp) hhr hbr
              have hun : erase_go k
                  (.node (.node a x vx b hl) k val (.node p y vy c hr) h) =
                  some (rebalance_at
                    (.node (.node a x vx b hl) mk mv r2 h)) := by
                simp [erase_go, hpop]
              simp only [node_height_node] at hheq hbal hlo hhi
              obtain ⟨rb_h, rb_b, rb_in, rb_lo, rb_hi, rb_eq⟩ :=
                rebalance_spec (.node a x vx b hl) r2 mk mv h hhl hh2 hbl hb2
                  (by simp only [node_height_node]; omega)
                  (by simp only [node_height_node]; omega)
              simp only [node_height_node] at rb_lo rb_hi rb_eq
              refine ⟨_, hun, rb_h, rb_b, ?_, ?_, ?_⟩
              · simp only [node_height_node]
                by_cases hd1 : hl ≤ node_height r2 + 1
                · by_cases hd2 : node_height r2 ≤ hl + 1
                  · have hg := rb_eq hd1 hd2; omega
                  · omega
                · omega
              · simp only [node_height_node]
                by_cases hd1 : hl ≤ node_height r2 + 1
                · by_cases hd2 : node_height r2 ≤ hl + 1
                  · have hg := rb_eq hd1 hd2; omega
                  · omega
                · omega
              · rw [rb_in]
                show inorder (Tree.node a x vx b hl) ++ (mk, mv) :: inorder r2 =
                  del_list k (inorder (Tree.node a x vx b hl) ++
                    (k, val) :: inorder (Tree.node p y vy c hr))
                rw [del_list_append_not_mem
                  (M := (k, val) :: inorder (Tree.node p y vy c hr))
                  (fun a' ha' => ne_of_lt (hsl a' (by simpa [keys] using ha')))]
                simp [del_list, hin]
      · -- descend right
        have hne : k ≠ key := ne_of_gt hgt
        have hnlt : ¬ k < key := not_lt.mpr (le_of_lt hgt)
        obtain ⟨ihn, ihs⟩ := ihr hhr hbr hssr
        constructor
        · intro hnm
          have hnr : k ∉ keys r := by
            intro hx; exact hnm (by rw [keys_node]; simp [hx])
          simp only [erase_go, if_neg hne, if_neg hnlt, ihn hnr]
        · intro hmem
          rw [keys_node] at hmem
          simp only [List.mem_append, List.mem_cons] at hmem
          have hmr : k ∈ keys r := by
            rcases hmem with hx | hx | hx
            · exact absurd hgt (not_lt.mpr (le_of_lt (hsl k hx)))
            · exact absurd hx hne
            · exact hx
          obtain ⟨r2, her, eh, eb, elo, ehi, ein⟩ := ihs hmr
          have hun : erase_go k (.node l key val r h) =
              some (rebalance_at (.node l key val r2 h)) := by
            simp only [erase_go, if_neg hne, if_neg hnlt, her]
          obtain ⟨rb_h, rb_b, rb_in, rb_lo, rb_hi, rb_eq⟩ :=
            rebalance_spec l r2 key val h hhl eh hbl eb (by omega) (by omega)
          refine ⟨_, hun, rb_h, rb_b, ?_, ?_, ?_⟩
          · simp only [node_height_node]
            by_cases hd1 : node_height l ≤ node_height r2 + 1
            · by_cases hd2 : node_height r2 ≤ node_height l + 1
              · have hg := rb_eq hd1 hd2; omega
              · omega
            · omega
          · simp only [node_height_node]
            by_cases hd1 : node_height l ≤ node_height r2 + 1
            · by_cases hd2 : node_height r2 ≤ node_height l + 1
              · have hg := rb_eq hd1 hd2; omega
              · omega
            · omega
          · rw [rb_in, ein, inorder]
            rw [del_list_append_not_mem (M := (key, val) :: inorder r)
              (fun a' ha' => ne_of_lt (lt_trans (hsl a' (by simpa [keys] using ha')) hgt))]
            simp only [del_list, if_neg (Ne.symm hne), ite_false]

/-- On a BST an absent key makes `find_node` return NULL. -/
theorem find_node_absent {t : Tree κ β} {k : κ} (hs : bst_b t = true)
    (hk : k ∉ keys t) : find_node t k = .nil := by
  induction t with
  | nil => rfl
  | node l key val r h ihl ihr =>
      rw [bst_b_node] at hs
      obtain ⟨hsl, hsr, hssl, hssr⟩ := hs
      rw [keys_node] at hk
      simp only [List.mem_append, List.mem_cons] at hk
      push_neg at hk
      obtain ⟨hk1, hk2, hk3⟩ := hk
      rcases lt_trichotomy k key with hlt | heq | hgt
      · simp only [find_node, if_neg hk2, if_pos hlt]
        exact ihl hssl hk1
      · exact absurd heq hk2
      · simp only [find_node, if_neg hk2, if_neg (not_lt.mpr (le_of_lt hgt))]
        exact ihr hssr hk3

/-- On a BST a present key makes `find_node` return the node storing it. -/
theorem find_node_present {t : Tree κ β} {k : κ} (hs : bst_b t = true)
    (hk : k ∈ keys t) : ∃ l2 v2 r2 h2, find_node t k = .node l2 k v2 r2 h2 ∧
      (k, v2) ∈ inorder t := by
  induction t with
  | nil => simp [keys_nil] at hk
  | node l key val r h ihl ihr =>
      rw [bst_b_node] at hs
      obtain ⟨hsl, hsr, hssl, hssr⟩ := hs
      rw [keys_node] at hk
      simp only [List.mem_append, List.mem_cons] at hk
      rcases lt_trichotomy k key with hlt | heq | hgt
      · have hne : k ≠ key := ne_of_lt hlt
        have hml : k ∈ keys l := by
          rcases hk with hx | hx | hx
          · exact hx
          · exact absurd hx hne
          · exact absurd hlt (not_lt.mpr (le_of_lt (hsr k hx)))
        obtain ⟨l2, v2, r2, h2, hf, hm⟩ := ihl hssl hml
        refine ⟨l2, v2, r2, h2, ?_, ?_⟩
        · simp only [find_node, if_neg hne, if_pos hlt]; exact hf
        · rw [inorder]; simp [hm]
      · subst heq
        refine ⟨l, val, r, h, by simp [find_node], by rw [inorder]; simp⟩
      · have hne : k ≠ key := ne_of_gt hgt
        have hmr : k ∈ keys r := by
          rcases hk with hx | hx | hx
          · exact absurd hgt (not_lt.mpr (le_of_lt (hsl k hx)))
          · exact absurd hx hne
          · exact hx
        obtain ⟨l2, v2, r2, h2, hf, hm⟩ := ihr hssr hmr
        refine ⟨l2, v2, r2, h2, ?_, ?_⟩
        · simp only [find_node, if_neg hne, if_neg (not_lt.mpr (le_of_lt hgt))]
          exact hf
        · rw [inorder]; simp [hm]

/-- In-place value replacement keeps the shape: structure, keys and stored
heights are untouched. -/
theorem strip_put_value (k : κ) (v : β) (t : Tree κ β) :
    strip (put_value k v t) = strip t := by
  induction t with
  | nil => rfl
  | node l key val r h ihl ihr =>
      rcases lt_trichotomy k key with hlt | heq | hgt
      · simp [put_value, ne_of_lt hlt, hlt, strip, ihl]
      · subst heq; simp [put_value, strip]
      · simp [put_value, ne_of_gt hgt, not_lt.mpr (le_of_lt hgt), strip, ihr]

theorem put_value_keys (k : κ) (v : β) (t : Tree κ β) :
    keys (put_value k v t) = keys t := by
  induction t with
  | nil => rfl
  | node l key val r h ihl ihr =>
      rcases lt_trichotomy k key with hlt | heq | hgt
      · simp [put_value, ne_of_lt hlt, hlt, keys_node, ihl]
      · subst heq; simp [put_value, keys_node]
      · simp [put_value, ne_of_gt hgt, not_lt.mpr (le_of_lt hgt), keys_node, ihr]

theorem put_value_node_height (k : κ) (v : β) (t : Tree κ β) :
    node_height (put_value k v t) = node_height t := by
  cases t with
  | nil => rfl
  | node l key val r h =>
      rcases lt_trichotomy k key with hlt | heq | hgt
      · simp [put_value, ne_of_lt hlt, hlt, node_height_node]
      · subst heq; simp [put_value, node_height_node]
      · simp [put_value, ne_of_gt hgt, not_lt.mpr (le_of_lt hgt), node_height_node]

theorem put_value_heights_ok (k : κ) (v : β) (t : Tree κ β) :
    heights_ok (put_value k v t) = heights_ok t := by
  induction t with
  | nil => rfl
  | node l key val r h ihl ihr =>
      rcases lt_trichotomy k key with hlt | heq | hgt
      · simp [put_value, ne_of_lt hlt, hlt, heights_ok, ihl, put_value_node_height]
      · subst heq; simp [put_value, heights_ok]
      · simp [put_value, ne_of_gt hgt, not_lt.mpr (le_of_lt hgt), heights_ok, ihr,
          put_value_node_height]

theorem put_value_balanced (k : κ) (v : β) (t : Tree κ β) :
    balanced_b (put_value k v t) = balanced_b t := by
  induction t with
  | nil => rfl
  | node l key val r h ihl ihr =>
      rcases lt_trichotomy k key with hlt | heq | hgt
      · simp [put_value, ne_of_lt hlt, hlt, balanced_b, ihl, put_value_node_height]
      · subst heq; simp [put_value, balanced_b]
      · simp [put_value, ne_of_gt hgt, not_lt.mpr (le_of_lt hgt), balanced_b, ihr,
          put_value_node_height]

/-- After replacing the value at a present key, `find_node` locates the node
holding the new value. -/
theorem find_node_put_value {t : Tree κ β} {k : κ} (v : β) (hs : bst_b t = true)
    (hk : k ∈ keys t) :
    ∃ l2 r2 h2, find_node (put_value k v t) k = .node l2 k v r2 h2 := by
  induction t with
  | nil => simp [keys_nil] at hk
  | node l key val r h ihl ihr =>
      rw [bst_b_node] at hs
      obtain ⟨hsl, hsr, hssl, hssr⟩ := hs
      rw [keys_node] at hk
      simp only [List.mem_append, List.mem_cons] at hk
      rcases lt_trichotomy k key with hlt | heq | hgt
      · have hne : k ≠ key := ne_of_lt hlt
        have hml : k ∈ keys l := by
          rcases hk with hx | hx | hx
          · exact hx
          · exact absurd hx hne
          · exact absurd hlt (not_lt.mpr (le_of_lt (hsr k hx)))
        obtain ⟨l2, r2, h2, hf⟩ := ihl hssl hml
        refine ⟨l2, r2, h2, ?_⟩
        simp only [put_value, if_neg hne, if_pos hlt, find_node]
        exact hf
      · subst heq
        exact ⟨l, r, h, by simp [put_value, find_node]⟩
      · have hne : k ≠ key := ne_of_gt hgt
        have hmr : k ∈ keys r := by
          rcases hk with hx | hx | hx
          · exact absurd hgt (not_lt.mpr (le_of_lt (hsl k hx)))
          · exact absurd hx hne
          · exact hx
        obtain ⟨l2, r2, h2, hf⟩ := ihr hssr hmr
        refine ⟨l2, r2, h2, ?_⟩
        simp only [put_value, if_neg hne, if_neg (not_lt.mpr (le_of_lt hgt)), find_node]
        exact hf

/-- Map-level insertion specification, covering the empty-root fast path of
`map_insert`: status 0 exactly for duplicate keys (map untouched), status 1
otherwise, with the invariant re-established, sorted-insert contents and the
size incremented. -/
theorem map_insert_spec (m : map_t κ β) (k : κ) (v : β) (hm : map_inv m) :
    ((map_insert m k v).1 = 0 ∨ (map_insert m k v).1 = 1) ∧
    ((map_insert m k v).1 = 0 ↔ k ∈ keys m.root) ∧
    ((map_insert m k v).1 = 0 → (map_insert m k v).2 = m) ∧
    ((map_insert m k v).1 = 1 →
      map_inv (map_insert m k v).2 ∧
      inorder (map_insert m k v).2.root = ins_list k v (inorder m.root) ∧
      (map_insert m k v).2.size = m.size + 1 ∧
      (map_insert m k v).2.val_free = m.val_free) := by
  obtain ⟨mr, ms, mf⟩ := m
  obtain ⟨h1, h2, h3, h4⟩ := hm
  simp only at h1 h2 h3 h4
  rcases mr with _ | ⟨l, key, val, r, hh⟩
  · have hms : ms = 0 := by simpa [inorder] using h4
    subst hms
    have hun : map_insert (⟨.nil, 0, mf⟩ : map_t κ β) k v =
        (1, ⟨.node .nil k v .nil 1, 1, mf⟩) := rfl
    rw [hun]
    refine ⟨Or.inr rfl, ?_, ?_, ?_⟩
    · simp [keys_nil]
    · intro h0; norm_num at h0
    · intro _
      exact ⟨⟨rfl, rfl, rfl, by simp [inorder]⟩, by simp [inorder, ins_list], rfl, rfl⟩
  · obtain ⟨s01, smem, s0, s1⟩ := insert_go_spec k v (.node l key val r hh) h1 h2 h3
    have hun : map_insert (⟨.node l key val r hh, ms, mf⟩ : map_t κ β) k v =
        ((insert_go k v (.node l key val r hh)).1,
          ⟨(insert_go k v (.node l key val r hh)).2,
            if (insert_go k v (.node l key val r hh)).1 = 1 then ms + 1 else ms,
            mf⟩) := rfl
    rw [hun]
    simp only
    rcases s01 with h0 | hst
    · refine ⟨Or.inl h0, smem, ?_, ?_⟩
      · intro _
        have hz : ¬ (insert_go k v (.node l key val r hh)).1 = 1 := by
          rw [h0]; norm_num
        rw [s0 h0, if_neg hz]
      · intro hx; rw [h0] at hx; norm_num at hx
    · have hnm : k ∉ keys (Tree.node l key val r hh) := by
        intro hx
        have := smem.mpr hx
        rw [hst] at this; norm_num at this
    
      obtain ⟨ih_h, ih_b, _, _, ih_in⟩ := s1 hst
      have hpw : (keys (insert_go k v (.node l key val r hh)).2).Pairwise (· < ·) := by
        rw [keys, ih_in]
        exact ins_list_pairwise (by rw [← keys, ← bst_b_iff_pairwise]; exact h3)
          (by rw [← keys]; exact hnm)
      refine ⟨Or.inr hst, ?_, ?_, ?_⟩
      · rw [hst]
        constructor
        · intro hx; norm_num at hx
        · intro hx; exact absurd hx hnm
      · intro hx; rw [hst] at hx; norm_num at hx
      · intro _
        rw [if_pos hst]
        refine ⟨⟨ih_h, ih_b, bst_b_iff_pairwise.mpr hpw, ?_⟩, ih_in, by trivial, by trivial⟩
        simp only
        rw [ih_in, ins_list_length, h4]

/-- Map-level erase specification: a missing key leaves the map untouched
with status 0; a present key yields status 1, re-established invariants,
the size decremented by exactly one, and the in-order contents with the
erased entry removed. -/
theorem map_erase_spec (m : map_t κ β) (k : κ) (hm : map_inv m) :
    (k ∉ keys m.root → map_erase m k = (0, m)) ∧
    (k ∈ keys m.root →
      (map_erase m k).1 = 1 ∧
      map_inv (map_erase m k).2 ∧
      (map_erase m k).2.size + 1 = m.size ∧
      inorder (map_erase m k).2.root = del_list k (inorder m.root) ∧
      (map_erase m k).2.val_free = m.val_free) := by
  obtain ⟨mr, ms, mf⟩ := m
  obtain ⟨h1, h2, h3, h4⟩ := hm
  simp only at h1 h2 h3 h4
  obtain ⟨en, es⟩ := erase_go_spec k mr h1 h2 h3
  constructor
  · intro hnm
    have : erase_go k mr = none := en hnm
    simp only [map_erase, this]
  · intro hmem
    obtain ⟨t2, he, eh, eb, _, _, ein⟩ := es hmem
    have hun : map_erase (⟨mr, ms, mf⟩ : map_t κ β) k = (1, ⟨t2, ms - 1, mf⟩) := by
      simp only [map_erase, he]
    rw [hun]
    have hlen : (del_list k (inorder mr)).length + 1 = (inorder mr).length :=
      del_list_length (by simpa [keys] using hmem)
    have hpw : (keys t2).Pairwise (· < ·) := by
      rw [keys, ein]
      exact List.Pairwise.sublist ((del_list_sublist (inorder mr)).map Prod.fst)
        (by rw [← keys, ← bst_b_iff_pairwise]; exact h3)
    refine ⟨rfl, ⟨eh, eb, bst_b_iff_pairwise.mpr hpw, ?_⟩, ?_, ein, rfl⟩
    · simp only
      rw [ein]
      omega
    · simp only
      omega

/-- Map-level put specification.  On a present key: status 2, unchanged
shape and size, the new value stored at the key, the old value passed to
`val_free` exactly once when the callback is configured (and never
otherwise).  On an absent key `map_put` is `map_insert` with an empty
`val_free` event list. -/
theorem map_put_spec (m : map_t κ β) (k : κ) (v : β) (hm : map_inv m) :
    (k ∈ keys m.root →
      (map_put m k v).1 = 2 ∧
      strip (map_put m k v).2.1.root = strip m.root ∧
      (map_put m k v).2.1.size = m.size ∧
      (map_put m k v).2.1.val_free = m.val_free ∧
      map_inv (map_put m k v).2.1 ∧
      map_find (map_put m k v).2.1 k = some v ∧
      (∃ old, map_find m k = some old ∧
        (map_put m k v).2.2 = if m.val_free then [old] else [])) ∧
    (k ∉ keys m.root →
      map_put m k v = ((map_insert m k v).1, (map_insert m k v).2, [])) := by
  obtain ⟨mr, ms, mf⟩ := m
  obtain ⟨h1, h2, h3, h4⟩ := hm
  simp only at h1 h2 h3 h4
  constructor
  · intro hmem
    obtain ⟨l2, v2, r2, h2f, hf, _⟩ := find_node_present h3 hmem
    have hun : map_put (⟨mr, ms, mf⟩ : map_t κ β) k v =
        (2, ⟨put_value k v mr, ms, mf⟩, if mf then [v2] else []) := by
      simp only [map_put, hf]
    rw [hun]
    obtain ⟨l3, r3, h3f, hpf⟩ := find_node_put_value v h3 hmem
    refine ⟨rfl, strip_put_value k v mr, rfl, rfl, ?_, ?_, ⟨v2, ?_, rfl⟩⟩
    · refine ⟨?_, ?_, ?_, ?_⟩
      · simpa [put_value_heights_ok] using h1
      · simpa [put_value_balanced] using h2
      · simp only
        rw [bst_b_iff_pairwise, put_value_keys]
        rw [← bst_b_iff_pairwise]; exact h3
      · simp only
        rw [h4]
        have := congrArg List.length (put_value_keys k v mr)
        simpa [keys] using this.symm
    · simp only [map_find, hpf]
    · simp only [map_find, hf]
  · intro hnm
    have hf : find_node mr k = .nil := find_node_absent h3 hnm
    simp only [map_put, hf]

/-- Every public mutating operation preserves the full map invariant. -/
theorem apply_op_inv (m : map_t κ β) (o : Op κ β) (hm : map_inv m) :
    map_inv (apply_op m o) := by
  rcases o with ⟨k, v⟩ | ⟨k, v⟩ | k
  · obtain ⟨s01, _, s0, s1⟩ := map_insert_spec m k v hm
    rcases s01 with h0 | h1
    · simpa [apply_op, s0 h0] using hm
    · exact (s1 h1).1
  · obtain ⟨hp, ha⟩ := map_put_spec m k v hm
    by_cases hmem : k ∈ keys m.root
    · exact (hp hmem).2.2.2.2.1
    · have := ha hmem
      simp only [apply_op, this]
      obtain ⟨s01, _, s0, s1⟩ := map_insert_spec m k v hm
      rcases s01 with h0 | h1
      · simpa [s0 h0] using hm
      · exact (s1 h1).1
  · obtain ⟨en, es⟩ := map_erase_spec m k hm
    by_cases hmem : k ∈ keys m.root
    · exact (es hmem).2.1
    · simpa [apply_op, en hmem] using hm

/-- The invariant holds in every state reachable from `map_create` by a
finite sequence of insert/put/erase operations. -/
theorem run_ops_inv (vf : Bool) (ops : List (Op κ β)) :
    map_inv (run_ops vf ops) := by
  have hgen : ∀ (l : List (Op κ β)) (m : map_t κ β), map_inv m →
      map_inv (l.foldl apply_op m) := by
    intro l
    induction l with
    | nil => intro m hm; exact hm
    | cons o tl ih =>
        intro m hm
        exact ih (apply_op m o) (apply_op_inv m o hm)
  exact hgen ops (map_create vf) ⟨rfl, rfl, rfl, rfl⟩

/-!
Iterator lemmas: the keys still to be visited from a cursor position, and
the step lemmas showing `map_next`/`map_prev` consume them one at a time.
-/

theorem down_min_upcoming (t : Tree κ β) (p : Path κ β) (hne : t ≠ .nil) :
    upcoming (down_min t p) = keys t ++ path_keys p := by
  induction t generalizing p with
  | nil => exact absurd rfl hne
  | node l k v r h ihl ihr =>
      rcases l with _ | ⟨a, b, c, d, e⟩
      · simp [down_min, upcoming, keys_node, keys_nil]
      · rw [show down_min (.node (.node a b c d e) k v r h) p =
            down_min (.node a b c d e) (.inl p k v r h) from rfl]
        rw [ihl (Path.inl p k v r h) (by simp)]
        simp [path_keys, keys_node]
  
theorem up_right_upcoming (t : Tree κ β) (p : Path κ β) :
    upcoming (up_right t p) = path_keys p := by
  induction p generalizing t with
  | top => rfl
  | inl p2 k v r h ih => simp [up_right, upcoming, path_keys]
  | inr l k v p2 h ih =>
      rw [show up_right t (.inr l k v p2 h) = up_right (.node l k v t h) p2 from rfl]
      rw [ih]
      rfl

theorem map_next_upcoming (loc : Option (Loc κ β)) :
    upcoming (map_next loc) = (upcoming loc).tail := by
  rcases loc with _ | ⟨t, p⟩
  · rfl
  · rcases t with _ | ⟨l, k, v, r, h⟩
    · rfl
    · rcases r with _ | ⟨a, b, c, d, e⟩
      · rw [show map_next (some (.node l k v .nil h, p)) =
            up_right (.node l k v .nil h) p from rfl]
        rw [up_right_upcoming]
        simp [upcoming, keys_nil]
      · rw [show map_next (some (.node l k v (.node a b c d e) h, p)) =
            down_min (.node a b c d e) (.inr l k v p h) from rfl]
        rw [down_min_upcoming _ _ (by simp)]
        simp [upcoming, path_keys]

theorem iter_fwd_upcoming (n : Nat) (loc : Option (Loc κ β))
    (hn : (upcoming loc).length ≤ n) : iter_fwd n loc = upcoming loc := by
  induction n generalizing loc with
  | zero =>
      have hz : upcoming loc = [] := List.length_eq_zero.mp (Nat.le_zero.mp hn)
      rw [hz]
      rcases loc with _ | ⟨t, p⟩ <;> rfl
  | succ n ih =>
      rcases loc with _ | ⟨t, p⟩
      · rfl
      · rcases t with _ | ⟨l, k, v, r, h⟩
        · rfl
        · have hup : upcoming (some ((Tree.node l k v r h : Tree κ β), p)) =
              k :: (keys r ++ path_keys p) := rfl
          have hn2 : (upcoming (map_next
              (some ((Tree.node l k v r h : Tree κ β), p)))).length ≤ n := by
            rw [map_next_upcoming, hup]
            rw [hup] at hn
            simp only [List.length_cons, List.tail_cons] at hn ⊢
            omega
          rw [show iter_fwd (n + 1) (some ((Tree.node l k v r h : Tree κ β), p)) =
              k :: iter_fwd n (map_next (some ((Tree.node l k v r h : Tree κ β), p)))
              from rfl]
          rw [ih _ hn2, map_next_upcoming, hup]
          simp [List.tail_cons]

theorem down_max_upcoming (t : Tree κ β) (p : Path κ β) (hne : t ≠ .nil) :
    upcoming_r (down_max t p) = (keys t).reverse ++ path_keys_r p := by
  induction t generalizing p with
  | nil => exact absurd rfl hne
  | node l k v r h ihl ihr =>
      rcases r with _ | ⟨a, b, c, d, e⟩
      · simp [down_max, upcoming_r, keys_node, keys_nil]
      · rw [show down_max (.node l k v (.node a b c d e) h) p =
            down_max (.node a b c d e) (.inr l k v p h) from rfl]
        rw [ihr (Path.inr l k v p h) (by simp)]
        simp [path_keys_r, keys_node]

theorem up_left_upcoming (t : Tree κ β) (p : Path κ β) :
    upcoming_r (up_left t p) = path_keys_r p := by
  induction p generalizing t with
  | top => rfl
  | inr l k v p2 h ih => simp [up_left, upcoming_r, path_keys_r]
  | inl p2 k v r h ih =>
      rw [show up_left t (.inl p2 k v r h) = up_left (.node t k v r h) p2 from rfl]
      rw [ih]
      rfl

theorem map_prev_upcoming (loc : Option (Loc κ β)) :
    upcoming_r (map_prev loc) = (upcoming_r loc).tail := by
  rcases loc with _ | ⟨t, p⟩
  · rfl
  · rcases t with _ | ⟨l, k, v, r, h⟩
    · rfl
    · rcases l with _ | ⟨a, b, c, d, e⟩
      · rw [show map_prev (some (.node .nil k v r h, p)) =
            up_left (.node .nil k v r h) p from rfl]
        rw [up_left_upcoming]
        simp [upcoming_r, keys_nil]
      · rw [show map_prev (some (.node (.node a b c d e) k v r h, p)) =
            down_max (.node a b c d e) (.inl p k v r h) from rfl]
        rw [down_max_upcoming _ _ (by simp)]
        simp [upcoming_r, path_keys_r]

theorem iter_bwd_upcoming (n : Nat) (loc : Option (Loc κ β))
    (hn : (upcoming_r loc).length ≤ n) : iter_bwd n loc = upcoming_r loc := by
  induction n generalizing loc with
  | zero =>
      have hz : upcoming_r loc = [] := List.length_eq_zero.mp (Nat.le_zero.mp hn)
      rw [hz]
      rcases loc with _ | ⟨t, p⟩ <;> rfl
  | succ n ih =>
      rcases loc with _ | ⟨t, p⟩
      · rfl
      · rcases t with _ | ⟨l, k, v, r, h⟩
        · rfl
        · have hup : upcoming_r (some ((Tree.node l k v r h : Tree κ β), p)) =
              k :: ((keys l).reverse ++ path_keys_r p) := rfl
          have hn2 : (upcoming_r (map_prev
              (some ((Tree.node l k v r h : Tree κ β), p)))).length ≤ n := by
            rw [map_prev_upcoming, hup]
            rw [hup] at hn
            simp only [List.length_cons, List.tail_cons] at hn ⊢
            omega
          rw [show iter_bwd (n + 1) (some ((Tree.node l k v r h : Tree κ β), p)) =
              k :: iter_bwd n (map_prev (some ((Tree.node l k v r h : Tree κ β), p)))
              from rfl]
          rw [ih _ hn2, map_prev_upcoming, hup]
          simp [List.tail_cons]

/-- Forward iteration from `map_begin` visits exactly the in-order keys. -/
theorem map_begin_upcoming (m : map_t κ β) :
    upcoming (map_begin m) = keys m.root := by
  rcases hr : m.root with _ | ⟨l, k, v, r, h⟩
  · simp [map_begin, hr, down_min, upcoming, keys_nil]
  · rw [map_begin, hr, down_min_upcoming _ _ (by simp)]
    simp [path_keys]

/-- Backward iteration from the maximum position visits exactly the
reversed in-order keys. -/
theorem down_max_top_upcoming (m : map_t κ β) :
    upcoming_r (down_max m.root .top) = (keys m.root).reverse := by
  rcases hr : m.root with _ | ⟨l, k, v, r, h⟩
  · simp [hr, down_max, upcoming_r, keys_nil]
  · rw [down_max_upcoming _ _ (by simp)]
    simp [path_keys_r]

/-- Ordered insertion is a permutation of consing the new entry. -/
theorem ins_list_perm (k : κ) (v : β) (L : List (κ × β)) :
    (ins_list k v L).Perm ((k, v) :: L) := by
  induction L with
  | nil => exact List.Perm.refl _
  | cons q tl ih =>
      obtain ⟨a, b⟩ := q
      by_cases hka : k < a
      · simp [ins_list, hka]
      · simp only [ins_list, hka, if_neg, ite_false]
        exact (ih.cons (a, b)).trans (List.Perm.swap (k, v) (a, b) tl)

/-- Running distinct-key insertions from a fresh map yields a valid map
whose contents are a permutation of the inserted pairs. -/
theorem run_inserts_spec (vf : Bool) (ps : List (κ × β))
    (hd : (ps.map Prod.fst).Pairwise (· ≠ ·)) :
    map_inv (run_inserts vf ps) ∧ (inorder (run_inserts vf ps).root).Perm ps := by
  have hgen : ∀ (l : List (κ × β)) (m : map_t κ β), map_inv m →
      (l.map Prod.fst).Pairwise (· ≠ ·) →
      (∀ x ∈ l.map Prod.fst, x ∉ keys m.root) →
      map_inv (l.foldl (fun m p => (map_insert m p.1 p.2).2) m) ∧
      (inorder (l.foldl (fun m p => (map_insert m p.1 p.2).2) m).root).Perm
        (inorder m.root ++ l) := by
    intro l
    induction l with
    | nil => intro m hm _ _; exact ⟨hm, by simp⟩
    | cons q tl ih =>
        obtain ⟨k, v⟩ := q
        intro m hm hpw hfresh
        obtain ⟨s01, smem, s0, s1⟩ := map_insert_spec m k v hm
        have hst : (map_insert m k v).1 = 1 := by
          rcases s01 with h0 | h1
          · exact absurd (smem.mp h0) (hfresh k (by simp))
          · exact h1
        obtain ⟨hminv, hino, _, _⟩ := s1 hst
        simp only [List.map_cons, List.pairwise_cons] at hpw
        have hfresh2 : ∀ x ∈ tl.map Prod.fst, x ∉ keys (map_insert m k v).2.root := by
          intro x hx hmem
          rw [keys, hino] at hmem
          rcases ins_list_map_fst_mem.mp hmem with rfl | hmem
          · exact absurd rfl (hpw.1 x hx).symm
          · exact hfresh x (by simp [hx]) (by rw [keys]; exact hmem)
        obtain ⟨hfin, hfperm⟩ := ih (map_insert m k v).2 hminv hpw.2 hfresh2
        refine ⟨hfin, ?_⟩
        refine hfperm.trans ?_
        have h1 : (inorder (map_insert m k v).2.root).Perm ((k, v) :: inorder m.root) := by
          rw [hino]; exact ins_list_perm k v (inorder m.root)
        exact (h1.append_right tl).trans List.perm_middle.symm
  have := hgen ps (map_create vf) ⟨rfl, rfl, rfl, rfl⟩ hd (by simp [map_create, keys_nil])
  simpa [run_inserts, map_create, inorder] using this

/-- With pairwise-distinct keys an association list stores at most one value
per key. -/
theorem entry_unique {L : List (κ × β)} (hpw : (L.map Prod.fst).Pairwise (· ≠ ·))
    {k : κ} {v1 v2 : β} (h1 : (k, v1) ∈ L) (h2 : (k, v2) ∈ L) : v1 = v2 := by
  induction L with
  | nil => simp at h1
  | cons q tl ih =>
      obtain ⟨a, b⟩ := q
      simp only [List.map_cons, List.pairwise_cons] at hpw
      rcases List.mem_cons.mp h1 with he1 | h1'
      · rcases List.mem_cons.mp h2 with he2 | h2'
        · obtain ⟨rfl, rfl⟩ := Prod.mk.injEq .. ▸ he1
          obtain ⟨_, rfl⟩ := Prod.mk.injEq .. ▸ he2
          rfl
        · obtain ⟨rfl, rfl⟩ := Prod.mk.injEq .. ▸ he1
          exact absurd rfl (hpw.1 k (List.mem_map.mpr ⟨(k, v2), h2', rfl⟩))
      · rcases List.mem_cons.mp h2 with he2 | h2'
        · obtain ⟨rfl, rfl⟩ := Prod.mk.injEq .. ▸ he2
          exact absurd rfl (hpw.1 k (List.mem_map.mpr ⟨(k, v1), h1', rfl⟩))
        · exact ih hpw.2 h1' h2'

/-- Lookup characterization on a valid map: `map_find` returns exactly the
stored entry. -/
theorem map_find_some_iff (m : map_t κ β) (k : κ) (v : β) (hm : map_inv m) :
    map_find m k = some v ↔ (k, v) ∈ inorder m.root := by
  obtain ⟨_, _, h3, _⟩ := hm
  constructor
  · intro hf
    by_cases hk : k ∈ keys m.root
    · obtain ⟨l2, v2, r2, h2, hfn, hmem⟩ := find_node_present h3 hk
      rw [map_find, hfn] at hf
      obtain rfl : v2 = v := by injection hf
      exact hmem
    · rw [map_find, find_node_absent h3 hk] at hf
      exact absurd hf (by simp)
  · intro hmem
    have hk : k ∈ keys m.root := mem_keys.mpr ⟨v, hmem⟩
    obtain ⟨l2, v2, r2, h2, hfn, hmem2⟩ := find_node_present h3 hk
    rw [map_find, hfn]
    have hpw : ((inorder m.root).map Prod.fst).Pairwise (· ≠ ·) :=
      (bst_b_iff_pairwise.mp h3).imp ne_of_lt
    rw [entry_unique hpw hmem2 hmem]

/-- The leftmost node of any subtree has no left child: the in-order
successor used by the two-children erase case has at most one child. -/
theorem subtree_min_left_nil (t : Tree κ β) : left_of (subtree_min t) = .nil := by
  induction t with
  | nil => rfl
  | node l k v r h ihl ihr =>
      rcases l with _ | ⟨a, b, c, d, e⟩
      · rfl
      · exact ihl

/-- `pop_min` removes exactly the node that `subtree_min` locates. -/
theorem pop_min_subtree_min {t : Tree κ β} {mk : κ} {mv : β} {t2 : Tree κ β}
    (hp : pop_min t = some (mk, mv, t2)) :
    root_key (subtree_min t) = some mk := by
  induction t generalizing t2 with
  | nil => simp [pop_min] at hp
  | node l k v r h ihl ihr =>
      rcases l with _ | ⟨a, b, c, d, e⟩
      · obtain ⟨rfl, rfl, rfl⟩ : mk = k ∧ mv = v ∧ t2 = r := by
          simpa [pop_min] using hp.symm
        rfl
      · rw [show subtree_min (.node (.node a b c d e) k v r h) =
            subtree_min (.node a b c d e) from rfl]
        rw [show pop_min (.node (.node a b c d e) k v r h) =
            match pop_min (.node a b c d e) with
            | none => none
            | some (mk2, mv2, l2) =>
                some (mk2, mv2, rebalance_at (.node l2 k v r h)) from rfl] at hp
        rcases hpl : pop_min (.node a b c d e) with _ | ⟨mk2, mv2, l2⟩
        · rw [hpl] at hp; simp at hp
        · rw [hpl] at hp
          simp only at hp
          obtain ⟨rfl, rfl, rfl⟩ : mk2 = mk ∧ mv2 = mv ∧
              rebalance_at (.node l2 k v r h) = t2 := by
            simpa using hp
          exact ihl hpl

/-- The subtree returned by `find_node` inherits the tree invariants. -/
theorem find_node_inv {t : Tree κ β} (k : κ) (hh : heights_ok t = true)
    (hb : balanced_b t = true) (hs : bst_b t = true) :
    heights_ok (find_node t k) = true ∧ balanced_b (find_node t k) = true ∧
      bst_b (find_node t k) = true := by
  induction t with
  | nil => exact ⟨rfl, rfl, rfl⟩
  | node l key val r h ihl ihr =>
      have hhd := heights_ok_node.mp hh
      have hbd := balanced_b_node.mp hb
      have hsd := bst_b_node.mp hs
      rcases lt_trichotomy k key with hlt | heq | hgt
      · simp only [find_node, if_neg (ne_of_lt hlt), if_pos hlt]
        exact ihl hhd.1 hbd.1 hsd.2.2.1
      · subst heq
        simp only [find_node, if_pos rfl]
        exact ⟨hh, hb, hs⟩
      · simp only [find_node, if_neg (ne_of_gt hgt),
          if_neg (not_lt.mpr (le_of_lt hgt))]
        exact ihr hhd.2.1 hbd.2.1 hsd.2.2.2

end AvlMap

namespace AvlPool

open AvlMap

variable {β : Type}

/-- Pool insertion specification: an equal key is detected during the
descent before any allocation (status 0, no change); for a fresh key the
allocation fails exactly when all `MAX_NODES` slots are in use, returning -1
with the map unchanged; otherwise the insertion succeeds like the generic
version. -/
theorem pool_insert_spec (m : u32map_t β) (k : Nat) (v : β) (hm : pool_inv m) :
    (k ∈ keys m.root → pool_insert m k v = (0, m)) ∧
    (k ∉ keys m.root → MAX_NODES ≤ m.size → pool_insert m k v = (-1, m)) ∧
    (k ∉ keys m.root → m.size < MAX_NODES →
      (pool_insert m k v).1 = 1 ∧ pool_inv (pool_insert m k v).2 ∧
      inorder (pool_insert m k v).2.root = ins_list k v (inorder m.root) ∧
      (pool_insert m k v).2.size = m.size + 1) := by
  obtain ⟨mr, ms⟩ := m
  obtain ⟨h1, h2, h3, h4⟩ := hm
  simp only at h1 h2 h3 h4
  rcases mr with _ | ⟨l, key, val, r, hh⟩
  · have hms : ms = 0 := by simpa [inorder] using h4
    subst hms
    refine ⟨?_, ?_, ?_⟩
    · intro hmem; simp [keys_nil] at hmem
    · intro _ h256
      have habs : (MAX_NODES : Nat) ≤ 0 := h256
      rw [MAX_NODES] at habs
      omega
    · intro _ _
      have hun : pool_insert (⟨.nil, 0⟩ : u32map_t β) k v =
          (1, ⟨.node .nil k v .nil 1, 1⟩) := by
        simp [pool_insert, MAX_NODES]
      rw [hun]
      exact ⟨rfl, ⟨rfl, rfl, rfl, by simp [inorder]⟩,
        by simp [inorder, ins_list], rfl⟩
  · obtain ⟨s01, smem, s0, s1⟩ := insert_go_spec k v (.node l key val r hh) h1 h2 h3
    have hun : pool_insert (⟨.node l key val r hh, ms⟩ : u32map_t β) k v =
        (if (insert_go k v (.node l key val r hh)).1 = 0
          then (0, ⟨.node l key val r hh, ms⟩)
          else if MAX_NODES ≤ ms then (-1, ⟨.node l key val r hh, ms⟩)
          else (1, ⟨(insert_go k v (.node l key val r hh)).2, ms + 1⟩)) := rfl
    rw [hun]
    refine ⟨?_, ?_, ?_⟩
    · intro hmem
      rw [if_pos (smem.mpr hmem)]
    · intro hnm h256
      have hst : (insert_go k v (.node l key val r hh)).1 = 1 := by
        rcases s01 with h0 | h1'
        · exact absurd (smem.mp h0) hnm
        · exact h1'
      have h256' : MAX_NODES ≤ ms := h256
      rw [if_neg (by rw [hst]; norm_num), if_pos h256']
    · intro hnm hlt
      have hst : (insert_go k v (.node l key val r hh)).1 = 1 := by
        rcases s01 with h0 | h1'
        · exact absurd (smem.mp h0) hnm
        · exact h1'
      obtain ⟨ih_h, ih_b, _, _, ih_in⟩ := s1 hst
      have hnm' : k ∉ keys (AvlMap.Tree.node l key val r hh) := hnm
      have hpw : (keys (insert_go k v (.node l key val r hh)).2).Pairwise (· < ·) := by
        rw [keys, ih_in]
        exact ins_list_pairwise (by rw [← keys, ← bst_b_iff_pairwise]; exact h3)
          (by rw [← keys]; exact hnm')
      have hlt' : ms < MAX_NODES := hlt
      rw [if_neg (by rw [hst]; norm_num), if_neg (not_le.mpr hlt')]
      refine ⟨rfl, ⟨ih_h, ih_b, bst_b_iff_pairwise.mpr hpw, ?_⟩, ih_in, rfl⟩
      show ms + 1 = (inorder (insert_go k v (.node l key val r hh)).2).length
      rw [ih_in, ins_list_length, h4]

/-- Statuses and state of a run of fresh, distinct, within-capacity pool
insertions: every insertion returns 1 and the size grows by the number of
insertions. -/
theorem pool_run_spec (ps : List (Nat × β)) (m : u32map_t β) (hm : pool_inv m)
    (hfr : ∀ x ∈ ps.map Prod.fst, x ∉ keys m.root)
    (hpw : (ps.map Prod.fst).Pairwise (· ≠ ·))
    (hcap : m.size + ps.length ≤ MAX_NODES) :
    (pool_run m ps).2 = List.replicate ps.length 1 ∧
    pool_inv (pool_run m ps).1 ∧
    (pool_run m ps).1.size = m.size + ps.length ∧
    (∀ x, x ∈ keys (pool_run m ps).1.root ↔
      x ∈ ps.map Prod.fst ∨ x ∈ keys m.root) := by
  induction ps generalizing m with
  | nil => exact ⟨rfl, hm, rfl, by simp [pool_run]⟩
  | cons q tl ih =>
      obtain ⟨k, v⟩ := q
      obtain ⟨sp, sf, ss⟩ := pool_insert_spec m k v hm
      have hkf : k ∉ keys m.root := hfr k (by simp)
      have hroom : m.size < MAX_NODES := by
        simp only [List.length_cons] at hcap; omega
      obtain ⟨st1, hinv1, hin1, hsz1⟩ := ss hkf hroom
      simp only [List.map_cons, List.pairwise_cons] at hpw
      have hmem1 : ∀ x, x ∈ keys (pool_insert m k v).2.root ↔
          x = k ∨ x ∈ keys m.root := by
        intro x
        rw [keys, hin1]
        constructor
        · intro hx
          rcases ins_list_map_fst_mem.mp hx with rfl | hx
          · exact Or.inl rfl
          · exact Or.inr (by rw [keys]; exact hx)
        · intro hx
          rcases hx with rfl | hx
          · exact ins_list_map_fst_mem.mpr (Or.inl rfl)
          · exact ins_list_map_fst_mem.mpr (Or.inr (by rw [keys] at hx; exact hx))
      have hfr2 : ∀ x ∈ tl.map Prod.fst, x ∉ keys (pool_insert m k v).2.root := by
        intro x hx hmem
        rcases (hmem1 x).mp hmem with rfl | hmem
        · exact absurd rfl (hpw.1 x hx).symm
        · exact hfr x (by simp [hx]) hmem
      have hcap2 : (pool_insert m k v).2.size + tl.length ≤ MAX_NODES := by
        rw [hsz1]
        simp only [List.length_cons] at hcap
        omega
      obtain ⟨ihs, ihi, ihz, ihm⟩ := ih (pool_insert m k v).2 hinv1 hfr2 hpw.2 hcap2
      have hun : pool_run m ((k, v) :: tl) =
          ((pool_run (pool_insert m k v).2 tl).1,
            (pool_insert m k v).1 :: (pool_run (pool_insert m k v).2 tl).2) := rfl
      rw [hun]
      refine ⟨?_, ihi, ?_, ?_⟩
      · simp only [List.length_cons, List.replicate_succ]
        rw [ihs, st1]
      · simp only
        rw [ihz, hsz1]
        simp [List.length_cons]
        omega
      · intro x
        simp only
        rw [ihm x]
        constructor
        · intro hx
          rcases hx with hx | hx
          · exact Or.inl (by simp [hx])
          · rcases (hmem1 x).mp hx with rfl | hx2
            · exact Or.inl (by simp)
            · exact Or.inr hx2
        · intro hx
          rcases hx with hx | hx
          · simp only [List.map_cons, List.mem_cons] at hx
            rcases hx with rfl | hx
            · exact Or.inr ((hmem1 x).mpr (Or.inl rfl))
            · exact Or.inl hx
          · exact Or.inr ((hmem1 x).mpr (Or.inr hx))

/-- Splitting a run of pool insertions. -/
theorem pool_run_append (m : u32map_t β) (l1 l2 : List (Nat × β)) :
    pool_run m (l1 ++ l2) =
      ((pool_run (pool_run m l1).1 l2).1,
        (pool_run m l1).2 ++ (pool_run (pool_run m l1).1 l2).2) := by
  induction l1 generalizing m with
  | nil => rfl
  | cons q tl ih =>
      obtain ⟨k, v⟩ := q
      simp only [List.cons_append, pool_run, List.append_eq, ih]

end AvlPool

namespace AvlMap

variable {κ β : Type} [LinearOrder κ]

/-!
Claim theorems.
-/

/-- Claim C1: for every finite sequence of `map_insert`, `map_put` and
`map_erase` operations applied to a map created by `map_create`, every node
of the resulting tree satisfies `|height(left) − height(right)| ≤ 1`, its
height field equals `1 + max(height of left child, height of right child)`
with absent children counted as height 0, and the binary-search-tree
ordering with respect to the comparator holds over the full key set. -/
theorem claim_C1 (vf : Bool) (ops : List (Op κ β)) :
    balanced_b (run_ops vf ops).root = true ∧
    heights_ok (run_ops vf ops).root = true ∧
    bst_b (run_ops vf ops).root = true := by
  obtain ⟨h1, h2, h3, _⟩ := run_ops_inv vf ops
  exact ⟨h2, h1, h3⟩

/-- Claim C2: for any sequence of inserted distinct keys, forward iteration
starting at `map_begin` and repeatedly applying `map_next` until the end
sentinel visits the keys in strictly increasing comparator order (they are
exactly the tree's keys, a permutation of the inserted keys), and backward
iteration using `map_prev`, started at the position of the last (maximum)
element, visits them in exactly the reverse order. -/
theorem claim_C2 (vf : Bool) (ps : List (κ × β))
    (hd : (ps.map Prod.fst).Pairwise (· ≠ ·)) :
    iter_fwd (run_inserts vf ps).size (map_begin (run_inserts vf ps)) =
      keys (run_inserts vf ps).root ∧
    (keys (run_inserts vf ps).root).Chain' (· < ·) ∧
    (keys (run_inserts vf ps).root).Perm (ps.map Prod.fst) ∧
    iter_bwd (run_inserts vf ps).size (down_max (run_inserts vf ps).root .top) =
      (iter_fwd (run_inserts vf ps).size (map_begin (run_inserts vf ps))).reverse := by
  obtain ⟨hinv, hperm⟩ := run_inserts_spec vf ps hd
  obtain ⟨h1, h2, h3, h4⟩ := hinv
  have hsize : (keys (run_inserts vf ps).root).length ≤ (run_inserts vf ps).size := by
    rw [h4, keys]; simp
  have hfwd : iter_fwd (run_inserts vf ps).size (map_begin (run_inserts vf ps)) =
      keys (run_inserts vf ps).root := by
    rw [← map_begin_upcoming]
    exact iter_fwd_upcoming _ _ (by rw [map_begin_upcoming]; exact hsize)
  have hbwd : iter_bwd (run_inserts vf ps).size
      (down_max (run_inserts vf ps).root .top) =
      (keys (run_inserts vf ps).root).reverse := by
    rw [← down_max_top_upcoming]
    exact iter_bwd_upcoming _ _
      (by rw [down_max_top_upcoming]; simpa using hsize)
  refine ⟨hfwd, ?_, ?_, ?_⟩
  · exact List.chain'_iff_pairwise.mpr (bst_b_iff_pairwise.mp h3)
  · exact hperm.map Prod.fst
  · rw [hbwd, hfwd]

/-- Claim C3: erasing a present key returns Erased (1) and decreases the
size by exactly one, with all tree invariants re-established whatever the
shape of the erased node.  When the located node has two children, its
key and value are replaced by those of the in-order successor — the minimum
of its right subtree, a node with no left child — and the node actually
unlinked is that successor: the right subtree loses exactly its minimum
entry and the erase core rebuilds the node with the successor's key/value. -/
theorem claim_C3 (m : map_t κ β) (k : κ) (hm : map_inv m) (hk : k ∈ keys m.root) :
    (map_erase m k).1 = 1 ∧
    (map_erase m k).2.size + 1 = m.size ∧
    map_inv (map_erase m k).2 ∧
    (left_of (find_node m.root k) ≠ .nil → right_of (find_node m.root k) ≠ .nil →
      left_of (subtree_min (right_of (find_node m.root k))) = .nil ∧
      ∃ mk mv r2, pop_min (right_of (find_node m.root k)) = some (mk, mv, r2) ∧
        root_key (subtree_min (right_of (find_node m.root k))) = some mk ∧
        (∀ x ∈ keys (right_of (find_node m.root k)), mk ≤ x) ∧
        inorder (right_of (find_node m.root k)) = (mk, mv) :: inorder r2 ∧
        erase_go k (find_node m.root k) =
          some (rebalance_at (.node (left_of (find_node m.root k)) mk mv r2
            (node_height (find_node m.root k))))) := by
  obtain ⟨hE1, hE2⟩ := map_erase_spec m k hm
  obtain ⟨e1, e2, e3, _, _⟩ := hE2 hk
  obtain ⟨h1, h2, h3, h4⟩ := hm
  refine ⟨e1, e3, e2, ?_⟩
  intro hl hr
  obtain ⟨l2, v2, r2x, h2x, hfn, _⟩ := find_node_present h3 hk
  obtain ⟨fh, fb, fs⟩ := find_node_inv k h1 h2 h3
  rw [hfn] at hl hr fh fb fs ⊢
  simp only [left_of_node, right_of_node, node_height_node] at hl hr ⊢
  have fhd := heights_ok_node.mp fh
  have fbd := balanced_b_node.mp fb
  have fsd := bst_b_node.mp fs
  obtain ⟨mk, mv, r2, hpop, hin, _, _, _, _⟩ := pop_min_spec r2x hr fhd.2.1 fbd.2.1
  refine ⟨subtree_min_left_nil r2x, mk, mv, r2, hpop, pop_min_subtree_min hpop,
    ?_, hin, ?_⟩
  · have hpw : (keys r2x).Pairwise (· < ·) := bst_b_iff_pairwise.mp fsd.2.2.2
    have hkeq : keys r2x = mk :: keys r2 := by
      rw [keys, hin]; rfl
    rw [hkeq] at hpw ⊢
    intro x hx
    rcases List.mem_cons.mp hx with rfl | hx
    · exact le_refl x
    · exact le_of_lt ((List.pairwise_cons.mp hpw).1 x hx)
  · rcases l2 with _ | ⟨a1, a2, a3, a4, a5⟩
    · exact absurd rfl hl
    · rcases r2x with _ | ⟨b1, b2, b3, b4, b5⟩
      · exact absurd rfl hr
      · simp [erase_go, hpop]

/-- Claim C4: `map_put` on a key already present returns Replaced (2),
leaves the tree shape (structure, keys, heights) and the size unchanged, a
subsequent `map_find` on that key returns the new value, and the previously
stored value is passed to the `val_free` callback exactly once when a value
ownership policy is configured, never otherwise. -/
theorem claim_C4 (m : map_t κ β) (k : κ) (v : β) (hm : map_inv m)
    (hk : k ∈ keys m.root) :
    (map_put m k v).1 = 2 ∧
    strip (map_put m k v).2.1.root = strip m.root ∧
    (map_put m k v).2.1.size = m.size ∧
    map_find (map_put m k v).2.1 k = some v ∧
    (∃ old, map_find m k = some old ∧
      (m.val_free = true → (map_put m k v).2.2 = [old]) ∧
      (m.val_free = false → (map_put m k v).2.2 = [])) := by
  obtain ⟨hp, _⟩ := map_put_spec m k v hm
  obtain ⟨a1, a2, a3, _, _, a6, old, a7, a8⟩ := hp hk
  refine ⟨a1, a2, a3, a6, old, a7, ?_, ?_⟩
  · intro hv; rw [a8, if_pos hv]
  · intro hv; rw [a8, if_neg (by simp [hv])]

/-- Claim C5: `map_insert` on a key already present returns AlreadyExists
(0) and performs no modification at all: the returned map is the original
map — same tree (hence same stored value for the key), same size. -/
theorem claim_C5 (m : map_t κ β) (k : κ) (v : β) (hm : map_inv m)
    (hk : k ∈ keys m.root) : map_insert m k v = (0, m) := by
  obtain ⟨s01, smem, s0, _⟩ := map_insert_spec m k v hm
  have h0 := smem.mpr hk
  exact Prod.ext h0 (s0 h0)

/-- Claim C6: a successful `map_insert` of a key not previously present,
followed by `map_find` of that key, yields the inserted value. -/
theorem claim_C6 (m : map_t κ β) (k : κ) (v : β) (hm : map_inv m)
    (hk : k ∉ keys m.root) :
    (map_insert m k v).1 = 1 ∧ map_find (map_insert m k v).2 k = some v := by
  obtain ⟨s01, smem, _, s1⟩ := map_insert_spec m k v hm
  have hst : (map_insert m k v).1 = 1 := by
    rcases s01 with h0 | h1
    · exact absurd (smem.mp h0) hk
    · exact h1
  obtain ⟨hminv, hino, _, _⟩ := s1 hst
  refine ⟨hst, ?_⟩
  rw [map_find_some_iff _ _ _ hminv, hino]
  exact ins_list_mem.mpr (Or.inl rfl)

/-- Claim C7 (code bug in `map_find`): on a NULL map handle, `map_insert`,
`map_put`, `map_erase`, `map_size`, `map_begin`, `map_end`, `map_clear` and
`map_destroy` are all guarded safe no-ops returning the neutral result
(-1 / 0 / the end sentinel / nothing), but `map_find` has no NULL guard: it
forwards the handle to `find_node`, whose first statement reads `m->root`,
so the execution dereferences the null handle — undefined behaviour, marked
here by the outer `none` — instead of returning the claimed neutral
NotFound. -/
theorem claim_C7 (k : Nat) (v : Nat) :
    map_insert_h (none : Option (map_t Nat Nat)) k v = (-1, none) ∧
    map_put_h (none : Option (map_t Nat Nat)) k v = (-1, none, []) ∧
    map_erase_h (none : Option (map_t Nat Nat)) k = (0, none) ∧
    map_size_h (none : Option (map_t Nat Nat)) = 0 ∧
    map_begin_h (none : Option (map_t Nat Nat)) = map_end_h none ∧
    map_clear_h (none : Option (map_t Nat Nat)) = none ∧
    map_destroy_h (none : Option (map_t Nat Nat)) = none ∧
    map_find_h (none : Option (map_t Nat Nat)) k = none :=
  ⟨rfl, rfl, rfl, rfl, rfl, rfl, rfl, rfl⟩

/-- Claim C9: whenever rebalancing finds a node left-heavy (balance factor
greater than 1) with `height(left.left)` equal to `height(left.right)`, it
applies the single right rotation, not the double (LR) rotation; and
symmetrically, a right-heavy node whose relevant child heights are tied
gets the single left rotation: the tie always selects the single
rotation. -/
theorem claim_C9 (l r : Tree κ β) (k : κ) (v : β) (h : Nat) :
    ((node_height l : Int) - node_height r > 1 →
      node_height (left_of l) = node_height (right_of l) →
      rebalance_at (.node l k v r h) =
        rotate_right (.node l k v r (max (node_height l) (node_height r) + 1))) ∧
    ((node_height l : Int) - node_height r < -1 →
      node_height (right_of r) = node_height (left_of r) →
      rebalance_at (.node l k v r h) =
        rotate_left (.node l k v r (max (node_height l) (node_height r) + 1))) := by
  constructor
  · intro hbal htie
    simp only [rebalance_at]
    rw [if_pos hbal, if_pos (le_of_eq htie.symm)]
  · intro hbal htie
    simp only [rebalance_at]
    rw [if_neg (by omega), if_pos hbal, if_pos (le_of_eq htie.symm)]

/-- Claim C10: C `map_find` returns NULL both when the key is absent and
when the key is present with a stored NULL value: on the concrete map
holding the single entry `1 ↦ NULL`, looking up the present key 1 and the
absent key 2 both return NULL, so the two cases are indistinguishable
through `map_find` alone. -/
theorem claim_C10 :
    map_find_flat (map_insert (map_create false : map_t Nat (Option Nat)) 1 none).2 1 =
      none ∧
    map_find_flat (map_insert (map_create false : map_t Nat (Option Nat)) 1 none).2 2 =
      none ∧
    1 ∈ keys (map_insert (map_create false : map_t Nat (Option Nat)) 1 none).2.root ∧
    2 ∉ keys (map_insert (map_create false : map_t Nat (Option Nat)) 1 none).2.root := by
  decide

/-!
Witnesses: each hypothesis-bearing claim theorem applied at a concrete
input.
-/

theorem claim_C2_witness :
    iter_fwd (run_inserts false [((2 : Nat), (0 : Nat)), (1, 0), (3, 0)]).size
        (map_begin (run_inserts false [((2 : Nat), (0 : Nat)), (1, 0), (3, 0)])) =
      keys (run_inserts false [((2 : Nat), (0 : Nat)), (1, 0), (3, 0)]).root ∧
    (keys (run_inserts false [((2 : Nat), (0 : Nat)), (1, 0), (3, 0)]).root).Chain'
      (· < ·) ∧
    (keys (run_inserts false [((2 : Nat), (0 : Nat)), (1, 0), (3, 0)]).root).Perm
      ([((2 : Nat), (0 : Nat)), (1, 0), (3, 0)].map Prod.fst) ∧
    iter_bwd (run_inserts false [((2 : Nat), (0 : Nat)), (1, 0), (3, 0)]).size
        (down_max (run_inserts false [((2 : Nat), (0 : Nat)), (1, 0), (3, 0)]).root
          .top) =
      (iter_fwd (run_inserts false [((2 : Nat), (0 : Nat)), (1, 0), (3, 0)]).size
        (map_begin (run_inserts false [((2 : Nat), (0 : Nat)), (1, 0), (3, 0)]))).reverse :=
  claim_C2 false [((2 : Nat), (0 : Nat)), (1, 0), (3, 0)] (by decide)

theorem claim_C3_witness :
    (map_erase (⟨.node (.node .nil 1 10 .nil 1) 2 20 (.node .nil 3 30 .nil 1) 2,
        3, false⟩ : map_t Nat Nat) 2).1 = 1 ∧
    (map_erase (⟨.node (.node .nil 1 10 .nil 1) 2 20 (.node .nil 3 30 .nil 1) 2,
        3, false⟩ : map_t Nat Nat) 2).2.size + 1 = 3 :=
  have h := claim_C3 (⟨.node (.node .nil 1 10 .nil 1) 2 20
    (.node .nil 3 30 .nil 1) 2, 3, false⟩ : map_t Nat Nat) 2 (by decide) (by decide)
  ⟨h.1, h.2.1⟩

theorem claim_C4_witness :
    (map_put (⟨.node (.node .nil 1 10 .nil 1) 2 20 (.node .nil 3 30 .nil 1) 2,
        3, true⟩ : map_t Nat Nat) 2 99).1 = 2 ∧
    map_find (map_put (⟨.node (.node .nil 1 10 .nil 1) 2 20
        (.node .nil 3 30 .nil 1) 2, 3, true⟩ : map_t Nat Nat) 2 99).2.1 2 =
      some 99 ∧
    (∃ old, map_find (⟨.node (.node .nil 1 10 .nil 1) 2 20
        (.node .nil 3 30 .nil 1) 2, 3, true⟩ : map_t Nat Nat) 2 = some old ∧
      (((⟨.node (.node .nil 1 10 .nil 1) 2 20 (.node .nil 3 30 .nil 1) 2,
        3, true⟩ : map_t Nat Nat)).val_free = true →
        (map_put (⟨.node (.node .nil 1 10 .nil 1) 2 20 (.node .nil 3 30 .nil 1) 2,
          3, true⟩ : map_t Nat Nat) 2 99).2.2 = [old])) :=
  have h := claim_C4 (⟨.node (.node .nil 1 10 .nil 1) 2 20
    (.node .nil 3 30 .nil 1) 2, 3, true⟩ : map_t Nat Nat) 2 99 (by decide) (by decide)
  ⟨h.1, h.2.2.2.1, h.2.2.2.2.elim (fun old ho => ⟨old, ho.1, ho.2.1⟩)⟩

theorem claim_C5_witness :
    map_insert (⟨.node (.node .nil 1 10 .nil 1) 2 20 (.node .nil 3 30 .nil 1) 2,
        3, false⟩ : map_t Nat Nat) 2 99 =
      (0, ⟨.node (.node .nil 1 10 .nil 1) 2 20 (.node .nil 3 30 .nil 1) 2,
        3, false⟩) :=
  claim_C5 (⟨.node (.node .nil 1 10 .nil 1) 2 20 (.node .nil 3 30 .nil 1) 2,
    3, false⟩ : map_t Nat Nat) 2 99 (by decide) (by decide)

theorem claim_C6_witness :
    (map_insert (⟨.node (.node .nil 1 10 .nil 1) 2 20 (.node .nil 3 30 .nil 1) 2,
        3, false⟩ : map_t Nat Nat) 4 40).1 = 1 ∧
    map_find (map_insert (⟨.node (.node .nil 1 10 .nil 1) 2 20
        (.node .nil 3 30 .nil 1) 2, 3, false⟩ : map_t Nat Nat) 4 40).2 4 =
      some 40 :=
  claim_C6 (⟨.node (.node .nil 1 10 .nil 1) 2 20 (.node .nil 3 30 .nil 1) 2,
    3, false⟩ : map_t Nat Nat) 4 40 (by decide) (by decide)

theorem claim_C9_witness :
    rebalance_at (.node (.node (.node .nil 1 0 .nil 1) 2 0 (.node .nil 3 0 .nil 1) 2)
        4 0 .nil 5 : Tree Nat Nat) =
      rotate_right (.node (.node (.node .nil 1 0 .nil 1) 2 0 (.node .nil 3 0 .nil 1) 2)
        4 0 .nil (max 2 0 + 1)) ∧
    rebalance_at (.node .nil 4 0 (.node (.node .nil 5 0 .nil 1) 6 0
        (.node .nil 7 0 .nil 1) 2) 9 : Tree Nat Nat) =
      rotate_left (.node .nil 4 0 (.node (.node .nil 5 0 .nil 1) 6 0
        (.node .nil 7 0 .nil 1) 2) (max 0 2 + 1)) :=
  ⟨(claim_C9 (.node (.node .nil 1 0 .nil 1) 2 0 (.node .nil 3 0 .nil 1) 2)
      (.nil : Tree Nat Nat) 4 0 5).1 (by decide) (by decide),
    (claim_C9 (.nil : Tree Nat Nat) (.node (.node .nil 5 0 .nil 1) 6 0
      (.node .nil 7 0 .nil 1) 2) 4 0 9).2 (by decide) (by decide)⟩

end AvlMap

namespace AvlPool

open AvlMap

/-- Claim C8: for the fixed-capacity pool variant with capacity `MAX_NODES`,
inserting `MAX_NODES + 1` distinct keys into an initially empty map
succeeds for the first `MAX_NODES` insertions (each returns 1) and the
final insertion returns Failed/PoolExhausted (-1) with the size remaining
`MAX_NODES` and the map state exactly what it was before the failed call
(atomic failure, no partial mutation). -/
theorem claim_C8 {β : Type} (ps : List (Nat × β))
    (hlen : ps.length = MAX_NODES + 1)
    (hd : (ps.map Prod.fst).Pairwise (· ≠ ·)) :
    (pool_run pool_init ps).2 = List.replicate MAX_NODES 1 ++ [-1] ∧
    (pool_run pool_init ps).1 = (pool_run pool_init (ps.take MAX_NODES)).1 ∧
    (pool_run pool_init ps).1.size = MAX_NODES := by
  have hsplit : ps.take MAX_NODES ++ ps.drop MAX_NODES = ps :=
    List.take_append_drop _ _
  have hlq : (ps.take MAX_NODES).length = MAX_NODES := by
    rw [List.length_take]; omega
  have hdl : (ps.drop MAX_NODES).length = 1 := by
    rw [List.length_drop]; omega
  obtain ⟨q, hq⟩ := List.length_eq_one.mp hdl
  obtain ⟨kq, vq⟩ := q
  have hd2 : ((ps.take MAX_NODES ++ [(kq, vq)]).map Prod.fst).Pairwise (· ≠ ·) := by
    rw [← hq, hsplit]; exact hd
  rw [List.map_append, List.pairwise_append] at hd2
  obtain ⟨hdq, _, hcross⟩ := hd2
  obtain ⟨rs, ri, rz, rm⟩ := pool_run_spec (ps.take MAX_NODES) pool_init
    ⟨rfl, rfl, rfl, rfl⟩ (by simp [pool_init, keys_nil]) hdq
    (by simp [pool_init, hlq])
  have hfresh : kq ∉ keys (pool_run pool_init (ps.take MAX_NODES)).1.root := by
    intro hmem
    rcases (rm kq).mp hmem with hmem | hmem
    · exact hcross kq hmem kq (by simp) rfl
    · simp [pool_init, keys_nil] at hmem
  have hfull : MAX_NODES ≤ (pool_run pool_init (ps.take MAX_NODES)).1.size := by
    rw [rz]; simp [pool_init, hlq]
  obtain ⟨_, sf, _⟩ := pool_insert_spec (pool_run pool_init (ps.take MAX_NODES)).1
    kq vq ri
  have hlast := sf hfresh hfull
  have hrun : pool_run pool_init ps =
      ((pool_run (pool_run pool_init (ps.take MAX_NODES)).1 [(kq, vq)]).1,
        (pool_run pool_init (ps.take MAX_NODES)).2 ++
          (pool_run (pool_run pool_init (ps.take MAX_NODES)).1 [(kq, vq)]).2) := by
    conv_lhs => rw [← hsplit, hq]
    exact pool_run_append pool_init (ps.take MAX_NODES) [(kq, vq)]
  have hone : pool_run (pool_run pool_init (ps.take MAX_NODES)).1 [(kq, vq)] =
      ((pool_run pool_init (ps.take MAX_NODES)).1, [-1]) := by
    show ((pool_run (pool_insert (pool_run pool_init (ps.take MAX_NODES)).1 kq vq).2
        []).1, (pool_insert (pool_run pool_init (ps.take MAX_NODES)).1 kq vq).1 ::
        (pool_run (pool_insert (pool_run pool_init (ps.take MAX_NODES)).1 kq vq).2
        []).2) = ((pool_run pool_init (ps.take MAX_NODES)).1, [-1])
    rw [hlast]
    rfl
  rw [hrun, hone]
  refine ⟨?_, rfl, ?_⟩
  · simp only
    rw [rs, hlq]
  · simp only
    rw [rz]
    simp [pool_init, hlq]

theorem claim_C8_witness :
    (pool_run pool_init ((List.range 257).map (fun i => (i, (0 : Nat))))).2 =
      List.replicate MAX_NODES 1 ++ [-1] ∧
    (pool_run pool_init ((List.range 257).map (fun i => (i, (0 : Nat))))).1.size =
      MAX_NODES := by
  have hd : (((List.range 257).map (fun i => (i, (0 : Nat)))).map
      Prod.fst).Pairwise (· ≠ ·) := by
    have he : ((List.range 257).map (fun i => (i, (0 : Nat)))).map Prod.fst =
        List.range 257 := by
      rw [List.map_map]
      exact List.map_congr_left (fun x _ => rfl) |>.trans (List.map_id _)
    rw [he]
    exact (List.pairwise_lt_range 257).imp ne_of_lt
  have h := claim_C8 ((List.range 257).map (fun i => (i, (0 : Nat))))
    (by simp [MAX_NODES]) hd
  exact ⟨h.1, h.2.2⟩

end AvlPool
